import Mathlib

set_option maxRecDepth 10000

/- Shallow embedding of the tagger version-resolution engine.

   Sources embedded: src/src/mut_version.rs (the MutVersion impl on semver::Version)
   and src/src/lib.rs (classification and proposal logic).  The semver crate's
   Version value type, its Ord instance and its parser are embedded as well,
   since the repository delegates to them.

   Modelling conventions:
   - u64 fields are Nat; the parser enforces the u64 upper bound exactly where
     the semver crate does.  Arithmetic overflow of u64 bump operations and of
     the i32 prerelease-counter addition (which would panic in a debug build)
     is outside the model; the i32 bound enforced by parse::<i32> when decoding
     a counter is modelled exactly.
   - Prerelease and build metadata are stored as the raw strings the crate
     stores; comparison splits on dots exactly as the crate does.
   - anyhow errors are collapsed into a single ParseError.malformed value. -/

/-! Decimal digit strings. -/

def charVal (c : Char) : Nat := c.toNat - 48

def digitsToNat (l : List Char) : Nat := l.foldl (fun a c => 10 * a + charVal c) 0

def digitsVal (l : List Nat) : Nat := l.foldl (fun a d => 10 * a + d) 0

def toDigitsAux : Nat → Nat → List Nat
  | 0, _ => []
  | fuel + 1, n => if n = 0 then [] else toDigitsAux fuel (n / 10) ++ [n % 10]

def bigDigits (n : Nat) : List Nat := if n = 0 then [0] else toDigitsAux n n

def natToDigits (n : Nat) : List Char := (bigDigits n).map Nat.digitChar

def intDigits (i : Int) : List Char :=
  if i < 0 then '-' :: natToDigits i.natAbs else natToDigits i.toNat

/-! The version value type: semver crate Version, major.minor.patch
    plus optional prerelease and build metadata strings. -/

structure Version where
  major : Nat
  minor : Nat
  patch : Nat
  pre : String
  build : String
deriving DecidableEq

def u64Max : Nat := 18446744073709551615

def i32Max : Nat := 2147483647

/-! Ordering: the semver crate Ord instance.  Numeric triple first, then the
    prerelease (an empty prerelease compares greater than any nonempty one, a
    release supersedes its prereleases), then build metadata.  Nonempty labels
    are split into dot-separated identifiers; an all-digit identifier compares
    numerically (value, then raw length, which for the leading-zero-free
    prerelease identifiers is plain numeric order) and below any alphanumeric
    identifier; two alphanumeric identifiers compare as ASCII strings. -/

def lexCompare : List Char → List Char → Ordering
  | [], [] => .eq
  | [], _ :: _ => .lt
  | _ :: _, [] => .gt
  | x :: xs, y :: ys => (compare x.toNat y.toNat).then (lexCompare xs ys)

def cmpNumericIdent (x y : List Char) : Ordering :=
  (compare (digitsToNat x) (digitsToNat y)).then (compare x.length y.length)

def cmpIdent (x y : List Char) : Ordering :=
  if x.all Char.isDigit then
    if y.all Char.isDigit then cmpNumericIdent x y else .lt
  else
    if y.all Char.isDigit then .gt else lexCompare x y

def cmpIdentList : List (List Char) → List (List Char) → Ordering
  | [], [] => .eq
  | [], _ :: _ => .lt
  | _ :: _, [] => .gt
  | x :: xs, y :: ys => (cmpIdent x y).then (cmpIdentList xs ys)

def splitDots : List Char → List (List Char)
  | [] => [[]]
  | c :: rest =>
      if c = '.' then [] :: splitDots rest
      else
        match splitDots rest with
        | [] => [[c]]
        | g :: gs => (c :: g) :: gs

def cmpPre (x y : String) : Ordering :=
  if x = "" then (if y = "" then .eq else .gt)
  else if y = "" then .lt
  else cmpIdentList (splitDots x.data) (splitDots y.data)

def cmpBuild (x y : String) : Ordering :=
  cmpIdentList (splitDots x.data) (splitDots y.data)

def cmpVersion (a b : Version) : Ordering :=
  (compare a.major b.major).then ((compare a.minor b.minor).then
    ((compare a.patch b.patch).then ((cmpPre a.pre b.pre).then (cmpBuild a.build b.build))))

/-! mut_version.rs: the MutVersion trait impl. -/

inductive SubVersion
  | major
  | minor
  | patch
deriving DecidableEq

inductive ParseError
  | malformed
deriving DecidableEq

instance {ε α : Type} [DecidableEq ε] [DecidableEq α] : DecidableEq (Except ε α) := fun a b =>
  match a, b with
  | .ok x, .ok y =>
      if h : x = y then .isTrue (by rw [h]) else .isFalse (fun e => h (Except.ok.inj e))
  | .error x, .error y =>
      if h : x = y then .isTrue (by rw [h]) else .isFalse (fun e => h (Except.error.inj e))
  | .ok _, .error _ => .isFalse (fun e => Except.noConfusion e)
  | .error _, .ok _ => .isFalse (fun e => Except.noConfusion e)

/-- set_pretag: self.pre = Prerelease::new(format!("pre{}", i)). -/
def Version.set_pretag (v : Version) (i : Int) : Version :=
  { v with pre := ⟨'p' :: 'r' :: 'e' :: intDigits i⟩ }

/-- Anchored attempt of the regex pre(\d+) at the head of the list: the
    letters p,r,e followed by at least one digit; on success the maximal digit
    run that follows. -/
def prePrefix? : List Char → Option (List Char)
  | 'p' :: 'r' :: 'e' :: rest2 =>
      if (rest2.takeWhile Char.isDigit).isEmpty then none
      else some (rest2.takeWhile Char.isDigit)
  | _ => none

/-- Leftmost match of the unanchored regex pre(\d+): try the anchored match at
    each position from the left, advancing one character on failure.  Returns
    none when the label contains no such substring. -/
def preScan : List Char → Option (List Char)
  | [] => none
  | c :: rest =>
      match prePrefix? (c :: rest) with
      | some ds => some ds
      | none => preScan rest

/-- increment_prerelease: an empty label yields counter 0 (the amount i is not
    used on that branch); otherwise the regex capture is parsed as i32 (hence
    the i32Max bound) and i is added. -/
def Version.increment_prerelease (v : Version) (i : Int) : Except ParseError Version :=
  if v.pre = "" then .ok (v.set_pretag 0)
  else
    match preScan v.pre.data with
    | none => .error .malformed
    | some ds =>
        if digitsToNat ds ≤ i32Max then .ok (v.set_pretag ((digitsToNat ds : Int) + i))
        else .error .malformed

/-- increment_version: bumps one numeric field, zeroes the lower-order ones,
    and touches nothing else (the prerelease field is left as it is). -/
def Version.increment_version (v : Version) : SubVersion → Version
  | .major => { v with major := v.major + 1, minor := 0, patch := 0 }
  | .minor => { v with minor := v.minor + 1, patch := 0 }
  | .patch => { v with patch := v.patch + 1 }

/-- resolve_collision recursion.  The fuel argument is an embedding artifact
    bounding the recursion depth; pre_tags.length + 2 is proved sufficient
    (each recursive call consumes a distinct member of pre_tags), so the
    fuel-exhausted branch is unreachable and the function agrees with the
    unbounded recursion of the source. -/
def resolveCollisionAux : Nat → Version → List Version → Except ParseError Version
  | 0, v, _ => .ok v
  | fuel + 1, v, pre_tags =>
      if v ∈ pre_tags then
        match v.increment_prerelease 100 with
        | .error e => .error e
        | .ok w => resolveCollisionAux fuel w pre_tags
      else .ok v

def Version.resolve_collision (v : Version) (pre_tags : List Version) :
    Except ParseError Version :=
  resolveCollisionAux (pre_tags.length + 2) v pre_tags

/-- Number of membership tests (loop iterations) resolve_collision performs. -/
def resolveIterAux : Nat → Version → List Version → Nat
  | 0, _, _ => 0
  | fuel + 1, v, pre_tags =>
      if v ∈ pre_tags then
        match v.increment_prerelease 100 with
        | .error _ => 1
        | .ok w => 1 + resolveIterAux fuel w pre_tags
      else 1

def resolve_collision_iterations (v : Version) (pre_tags : List Version) : Nat :=
  resolveIterAux (pre_tags.length + 2) v pre_tags

/-! The semver crate parser and Display, plus print and parse_v from
    mut_version.rs. -/

def isIdentChar (c : Char) : Bool := c.isDigit || c.isAlpha || c = '-'

/-- One numeric field: a nonempty digit run, no leading zero, value at most
    u64::MAX. -/
def parseNumField (l : List Char) : Option (Nat × List Char) :=
  let ds := l.takeWhile Char.isDigit
  if ds.isEmpty then none
  else if 1 < ds.length ∧ ds.head? = some '0' then none
  else if digitsToNat ds ≤ u64Max then some (digitsToNat ds, l.dropWhile Char.isDigit)
  else none

def validPreIdent (g : List Char) : Bool :=
  !g.isEmpty && g.all isIdentChar &&
    !(g.all Char.isDigit && decide (1 < g.length) && (g.head? == some '0'))

def validBuildIdent (g : List Char) : Bool := !g.isEmpty && g.all isIdentChar

def validPre (l : List Char) : Bool := (splitDots l).all validPreIdent

def validBuild (l : List Char) : Bool := (splitDots l).all validBuildIdent

def parseTriple (l : List Char) : Option (Nat × Nat × Nat × List Char) :=
  match parseNumField l with
  | some (mj, '.' :: l1) =>
      (match parseNumField l1 with
       | some (mn, '.' :: l2) =>
           (match parseNumField l2 with
            | some (pt, l3) => some (mj, mn, pt, l3)
            | none => none)
       | _ => none)
  | _ => none

def parseVersionCore (l : List Char) : Option Version :=
  match parseTriple l with
  | none => none
  | some (mj, mn, pt, rest) =>
      match rest with
      | [] => some ⟨mj, mn, pt, "", ""⟩
      | '-' :: l6 =>
          (if validPre (l6.takeWhile (fun c => c ≠ '+')) then
             match l6.dropWhile (fun c => c ≠ '+') with
             | [] => some ⟨mj, mn, pt, ⟨l6.takeWhile (fun c => c ≠ '+')⟩, ""⟩
             | '+' :: b =>
                 if validBuild b then
                   some ⟨mj, mn, pt, ⟨l6.takeWhile (fun c => c ≠ '+')⟩, ⟨b⟩⟩
                 else none
             | _ => none
           else none)
      | '+' :: b => if validBuild b then some ⟨mj, mn, pt, "", ⟨b⟩⟩ else none
      | _ => none

def Version.parse (s : String) : Except ParseError Version :=
  match parseVersionCore s.data with
  | some v => .ok v
  | none => .error .malformed

/-- parse_v: name.substring(1, name.len()) drops the first character (whatever
    it is) before handing the remainder to the semver parser. -/
def Version.parse_v (name : String) : Except ParseError Version :=
  Version.parse ⟨name.data.drop 1⟩

def displayChars (v : Version) : List Char :=
  natToDigits v.major ++ '.' :: natToDigits v.minor ++ '.' :: natToDigits v.patch
    ++ (if v.pre = "" then [] else '-' :: v.pre.data)
    ++ (if v.build = "" then [] else '+' :: v.build.data)

def Version.display (v : Version) : String := ⟨displayChars v⟩

/-- print: format!("v{}", self). -/
def Version.print (v : Version) : String := ⟨'v' :: displayChars v⟩

/-- A value the semver crate could actually hold: numeric fields in u64 range,
    prerelease and build either absent or matching the crate grammar. -/
def Version.Wf (v : Version) : Prop :=
  v.major ≤ u64Max ∧ v.minor ≤ u64Max ∧ v.patch ≤ u64Max ∧
    (v.pre = "" ∨ validPre v.pre.data = true) ∧
    (v.build = "" ∨ validBuild v.build.data = true)

instance (v : Version) : Decidable v.Wf := by
  unfold Version.Wf; infer_instance

/-! lib.rs: classification and proposal. -/

def v000 : Version := ⟨0, 0, 0, "", ""⟩

/-- One step of Iterator::max over the code ordering: on ties the later
    element wins. -/
def maxStep (acc : Option Version) (x : Version) : Option Version :=
  match acc with
  | none => some x
  | some a => if cmpVersion x a = .lt then some a else some x

/-- Iterator::max over the code ordering. -/
def listMax (l : List Version) : Option Version :=
  l.foldl maxStep none

/-- lib.rs lines 45-49: the maximum of the versions with an empty prerelease. -/
def latest_release (all_tags : List Version) : Option Version :=
  listMax (all_tags.filter (fun v => decide (v.pre = "")))

/-- lib.rs lines 135-141 (print_summary): the prerelease versions strictly
    greater than latest_release, defaulted to 0.0.0 when absent. -/
def active_prereleases (all_tags : List Version) : List Version :=
  (all_tags.filter (fun v => decide (¬v.pre = ""))).filter
    (fun v => decide (cmpVersion v ((latest_release all_tags).getD v000) = .gt))

/-- prompt_increment with the user's selection passed in as data. -/
def prompt_increment (version : Option Version) (choice : SubVersion) : Version :=
  (version.getD v000).increment_version choice

/-- lib.rs lines 76-87: the proposal branch.  On the canonical branch the
    bumped release is proposed; otherwise the current lineage prerelease (or,
    when absent, a fresh bump) has its counter incremented by 1.  Either way
    the candidate then runs through resolve_collision against all tags. -/
def next_tag_proposal (is_main : Bool) (latest : Option Version)
    (latest_current_prerelease : Option Version) (choice : SubVersion)
    (all_tags : List Version) : Except ParseError Version :=
  match
    (if is_main then Except.ok (prompt_increment latest choice)
     else (latest_current_prerelease.getD (prompt_increment latest choice)).increment_prerelease 1)
  with
  | .error e => .error e
  | .ok v => v.resolve_collision all_tags

/-! Statement helpers. -/

/-- The canonical label pre followed by the decimal digits of n. -/
def preLabelStr (n : Nat) : String := ⟨'p' :: 'r' :: 'e' :: natToDigits n⟩

/-- Recover n from a canonical pre label, none for any other string. -/
def preCounter? (s : String) : Option Nat :=
  if s = preLabelStr (digitsToNat (s.data.drop 3)) then some (digitsToNat (s.data.drop 3))
  else none

/-- Whether u is a tag the resolve_collision chain started at v (current
    counter n) could still visit. -/
def collPred (v : Version) (n : Nat) (u : Version) : Bool :=
  match preCounter? u.pre with
  | some m => decide (u = v.set_pretag (m : Int)) && decide (n ≤ m) && decide ((m - n) % 100 = 0)
  | none => false

/-- Members of tags that the resolve_collision chain started at v (current
    counter n) could still visit. -/
def colliders (v : Version) (n : Nat) (tags : List Version) : List Version :=
  tags.filter (collPred v n)

/-- The anchored label grammar the spec prescribes: pre followed by one or
    more digits and nothing else. -/
def matchesPrePattern (s : String) : Bool :=
  match s.data with
  | 'p' :: 'r' :: 'e' :: ds => !ds.isEmpty && ds.all Char.isDigit
  | _ => false

def demoTags : List Version := [⟨1, 0, 0, "", ""⟩, ⟨1, 1, 0, "", ""⟩, ⟨1, 1, 0, "pre0", ""⟩]

example : Version.parse_v "v1.2.3-pre7" = .ok ⟨1, 2, 3, "pre7", ""⟩ := by decide
example : Version.parse_v "v1.2.3-alpha.1+x86" = .ok ⟨1, 2, 3, "alpha.1", "x86"⟩ := by decide
example : Version.parse_v "1.2.3" = .error .malformed := by decide
example : cmpVersion ⟨1, 0, 0, "pre10", ""⟩ ⟨1, 0, 0, "pre2", ""⟩ = .lt := by decide
example : cmpVersion ⟨1, 1, 0, "pre0", ""⟩ ⟨1, 1, 0, "", ""⟩ = .lt := by decide
example : latest_release demoTags = some ⟨1, 1, 0, "", ""⟩ := by decide
example : active_prereleases demoTags = [] := by decide
example : (⟨1, 2, 0, "pre2", ""⟩ : Version).resolve_collision
    [⟨1, 2, 0, "pre2", ""⟩, ⟨1, 2, 0, "pre102", ""⟩] = .ok ⟨1, 2, 0, "pre202", ""⟩ := by decide
example : (⟨1, 2, 0, "", ""⟩ : Version).increment_prerelease 55 = .ok ⟨1, 2, 0, "pre0", ""⟩ := by
  decide
example : (⟨1, 0, 0, "apre3", ""⟩ : Version).increment_prerelease 1 = .ok ⟨1, 0, 0, "pre4", ""⟩ := by
  decide

/-! Arithmetic of decimal digit lists. -/

theorem digitsVal_foldl (l : List Nat) :
    ∀ a : Nat, l.foldl (fun x d => 10 * x + d) a = a * 10 ^ l.length + digitsVal l := by
  induction l with
  | nil => intro a; simp [digitsVal]
  | cons d l ih =>
      intro a
      simp only [List.foldl_cons, List.length_cons, digitsVal]
      rw [ih (10 * a + d), ih (10 * 0 + d)]
      ring

theorem digitsVal_cons (d : Nat) (l : List Nat) :
    digitsVal (d :: l) = d * 10 ^ l.length + digitsVal l := by
  have := digitsVal_foldl l d
  simp only [digitsVal, List.foldl_cons]
  simpa using this

theorem digitsVal_lt (l : List Nat) (h : ∀ d ∈ l, d < 10) :
    digitsVal l < 10 ^ l.length := by
  induction l with
  | nil => simp [digitsVal]
  | cons d l ih =>
      rw [digitsVal_cons]
      have hd : d < 10 := h d (by simp)
      have ht : digitsVal l < 10 ^ l.length := ih (fun x hx => h x (by simp [hx]))
      have : d * 10 ^ l.length ≤ 9 * 10 ^ l.length :=
        Nat.mul_le_mul_right _ (by omega)
      calc d * 10 ^ l.length + digitsVal l < d * 10 ^ l.length + 10 ^ l.length := by omega
        _ = (d + 1) * 10 ^ l.length := by ring
        _ ≤ 10 * 10 ^ l.length := Nat.mul_le_mul_right _ (by omega)
        _ = 10 ^ (d :: l).length := by rw [List.length_cons]; ring

theorem digitsVal_append_singleton (l : List Nat) (d : Nat) :
    digitsVal (l ++ [d]) = 10 * digitsVal l + d := by
  simp [digitsVal, List.foldl_append]

theorem charVal_digitChar (d : Nat) (h : d < 10) : charVal (Nat.digitChar d) = d := by
  interval_cases d <;> decide

theorem digitChar_isDigit (d : Nat) (h : d < 10) : (Nat.digitChar d).isDigit = true := by
  interval_cases d <;> decide

theorem digitChar_ne_zeroChar (d : Nat) (h0 : d ≠ 0) (h : d < 10) : Nat.digitChar d ≠ '0' := by
  interval_cases d <;> simp_all <;> decide

theorem digitsToNat_map_digitChar (l : List Nat) (h : ∀ d ∈ l, d < 10) :
    digitsToNat (l.map Nat.digitChar) = digitsVal l := by
  have general : ∀ (l : List Nat), (∀ d ∈ l, d < 10) → ∀ a : Nat,
      (l.map Nat.digitChar).foldl (fun x c => 10 * x + charVal c) a =
        l.foldl (fun x d => 10 * x + d) a := by
    intro l
    induction l with
    | nil => intro _ a; simp
    | cons d l ih =>
        intro h a
        simp only [List.map_cons, List.foldl_cons]
        rw [charVal_digitChar d (h d (by simp))]
        exact ih (fun x hx => h x (by simp [hx])) _
  simpa [digitsToNat, digitsVal] using general l h 0

theorem toDigitsAux_zero (fuel : Nat) : toDigitsAux fuel 0 = [] := by
  cases fuel <;> simp [toDigitsAux]

theorem toDigitsAux_val (fuel : Nat) :
    ∀ n : Nat, n ≤ fuel → digitsVal (toDigitsAux fuel n) = n := by
  induction fuel with
  | zero => intro n hn; interval_cases n; simp [toDigitsAux, digitsVal]
  | succ fuel ih =>
      intro n hn
      by_cases h0 : n = 0
      · simp [toDigitsAux, h0, digitsVal]
      · have hdiv : n / 10 ≤ fuel := by
          have := Nat.div_lt_self (Nat.pos_of_ne_zero h0) (by omega : 1 < 10)
          omega
        rw [toDigitsAux, if_neg h0, digitsVal_append_singleton, ih _ hdiv]
        omega

theorem toDigitsAux_lt (fuel : Nat) :
    ∀ n : Nat, ∀ d ∈ toDigitsAux fuel n, d < 10 := by
  induction fuel with
  | zero => intro n d hd; simp [toDigitsAux] at hd
  | succ fuel ih =>
      intro n d hd
      by_cases h0 : n = 0
      · simp [toDigitsAux, h0] at hd
      · rw [toDigitsAux, if_neg h0] at hd
        rcases List.mem_append.mp hd with h | h
        · exact ih _ _ h
        · simp at h; omega

theorem toDigitsAux_head (fuel : Nat) :
    ∀ n : Nat, n ≠ 0 → n ≤ fuel → ∃ d t, toDigitsAux fuel n = d :: t ∧ d ≠ 0 := by
  induction fuel with
  | zero => intro n h0 hn; omega
  | succ fuel ih =>
      intro n h0 hn
      rw [toDigitsAux, if_neg h0]
      by_cases hdiv : n / 10 = 0
      · refine ⟨n % 10, [], ?_, ?_⟩
        · rw [hdiv, toDigitsAux_zero]; rfl
        · have : n < 10 := by omega
          omega
      · have hle : n / 10 ≤ fuel := by
          have := Nat.div_lt_self (Nat.pos_of_ne_zero h0) (by omega : 1 < 10)
          omega
        obtain ⟨d, t, heq, hd⟩ := ih (n / 10) hdiv hle
        exact ⟨d, t ++ [n % 10], by rw [heq]; simp, hd⟩

theorem bigDigits_val (n : Nat) : digitsVal (bigDigits n) = n := by
  by_cases h : n = 0
  · simp [bigDigits, h, digitsVal]
  · rw [bigDigits, if_neg h]
    exact toDigitsAux_val n n (Nat.le_refl n)

theorem bigDigits_lt (n : Nat) : ∀ d ∈ bigDigits n, d < 10 := by
  by_cases h : n = 0
  · simp [bigDigits, h]
  · rw [bigDigits, if_neg h]
    exact toDigitsAux_lt n n

theorem bigDigits_ne_nil (n : Nat) : bigDigits n ≠ [] := by
  by_cases h : n = 0
  · simp [bigDigits, h]
  · rw [bigDigits, if_neg h]
    obtain ⟨d, t, heq, _⟩ := toDigitsAux_head n n h (Nat.le_refl n)
    simp [heq]

theorem digitsToNat_natToDigits (n : Nat) : digitsToNat (natToDigits n) = n := by
  rw [natToDigits, digitsToNat_map_digitChar _ (bigDigits_lt n), bigDigits_val]

theorem natToDigits_inj {m n : Nat} (h : natToDigits m = natToDigits n) : m = n := by
  have hm := digitsToNat_natToDigits m
  have hn := digitsToNat_natToDigits n
  rw [h] at hm
  omega

theorem natToDigits_all_digit (n : Nat) : ∀ c ∈ natToDigits n, c.isDigit = true := by
  intro c hc
  rw [natToDigits] at hc
  obtain ⟨d, hd, rfl⟩ := List.mem_map.mp hc
  exact digitChar_isDigit d (bigDigits_lt n d hd)

theorem natToDigits_ne_nil (n : Nat) : natToDigits n ≠ [] := by
  rw [natToDigits]
  simpa using bigDigits_ne_nil n

theorem natToDigits_zero : natToDigits 0 = ['0'] := by decide

theorem natToDigits_head_ne_zero (n : Nat) (h : n ≠ 0) :
    ∃ c t, natToDigits n = c :: t ∧ c ≠ '0' := by
  rw [natToDigits, bigDigits, if_neg h]
  obtain ⟨d, t, heq, hd⟩ := toDigitsAux_head n n h (Nat.le_refl n)
  refine ⟨Nat.digitChar d, t.map Nat.digitChar, by rw [heq]; simp, ?_⟩
  have hlt : d < 10 := by
    have := toDigitsAux_lt n n d (by rw [heq]; simp)
    exact this
  exact digitChar_ne_zeroChar d hd hlt

theorem natToDigits_no_leading_zero (n : Nat) :
    ¬(1 < (natToDigits n).length ∧ (natToDigits n).head? = some '0') := by
  by_cases h : n = 0
  · rw [h, natToDigits_zero]; simp
  · obtain ⟨c, t, heq, hc⟩ := natToDigits_head_ne_zero n h
    rw [heq]
    simp [hc]

/-! takeWhile and dropWhile over concatenations. -/

theorem takeWhile_append_of_all {p : Char → Bool} {xs : List Char}
    (h : ∀ c ∈ xs, p c = true) (ys : List Char) :
    (xs ++ ys).takeWhile p = xs ++ ys.takeWhile p := by
  induction xs with
  | nil => simp
  | cons x xs ih =>
      have hx := h x (by simp)
      have ht := ih (fun c hc => h c (by simp [hc]))
      simp [List.takeWhile_cons, hx, ht]

theorem dropWhile_append_of_all {p : Char → Bool} {xs : List Char}
    (h : ∀ c ∈ xs, p c = true) (ys : List Char) :
    (xs ++ ys).dropWhile p = ys.dropWhile p := by
  induction xs with
  | nil => simp
  | cons x xs ih =>
      simp only [List.cons_append, List.dropWhile_cons, h x (by simp), if_true]
      exact ih (fun c hc => h c (by simp [hc]))

theorem takeWhile_eq_self_of_all {p : Char → Bool} {xs : List Char}
    (h : ∀ c ∈ xs, p c = true) : xs.takeWhile p = xs := by
  have := takeWhile_append_of_all h []
  simpa using this

theorem takeWhile_eq_nil_of_head {p : Char → Bool} {xs : List Char}
    (h : ∀ c t, xs = c :: t → p c = false) : xs.takeWhile p = [] := by
  cases xs with
  | nil => rfl
  | cons c t => simp [List.takeWhile_cons, h c t rfl]

theorem dropWhile_eq_self_of_head {p : Char → Bool} {xs : List Char}
    (h : ∀ c t, xs = c :: t → p c = false) : xs.dropWhile p = xs := by
  cases xs with
  | nil => rfl
  | cons c t => simp [List.dropWhile_cons, h c t rfl]

/-! The prerelease label and codec. -/

theorem preLabelStr_data (n : Nat) : (preLabelStr n).data = 'p' :: 'r' :: 'e' :: natToDigits n :=
  rfl

theorem preLabelStr_ne_empty (n : Nat) : preLabelStr n ≠ "" := by
  intro h
  have : (preLabelStr n).data = ("" : String).data := by rw [h]
  simp [preLabelStr_data] at this

theorem preLabelStr_inj {m n : Nat} (h : preLabelStr m = preLabelStr n) : m = n := by
  have : (preLabelStr m).data = (preLabelStr n).data := by rw [h]
  simp only [preLabelStr_data, List.cons.injEq, true_and] at this
  exact natToDigits_inj this

theorem intDigits_natCast (n : Nat) : intDigits (n : Int) = natToDigits n := by
  rw [intDigits, if_neg (by omega)]
  simp

theorem set_pretag_natCast (v : Version) (n : Nat) :
    v.set_pretag (n : Int) = { v with pre := preLabelStr n } := by
  simp [Version.set_pretag, preLabelStr, intDigits_natCast]

theorem set_pretag_pre_natCast (v : Version) (n : Nat) :
    (v.set_pretag (n : Int)).pre = preLabelStr n := by
  rw [set_pretag_natCast]

theorem set_pretag_set_pretag (v : Version) (i j : Int) :
    (v.set_pretag i).set_pretag j = v.set_pretag j := rfl

theorem set_pretag_self {v : Version} {n : Nat} (h : v.pre = preLabelStr n) :
    v.set_pretag (n : Int) = v := by
  rw [set_pretag_natCast, ← h]

theorem set_pretag_inj {v : Version} {m n : Nat}
    (h : v.set_pretag (m : Int) = v.set_pretag (n : Int)) : m = n := by
  rw [set_pretag_natCast, set_pretag_natCast] at h
  have : preLabelStr m = preLabelStr n := congrArg Version.pre h
  exact preLabelStr_inj this

theorem preScan_label (n : Nat) :
    preScan ('p' :: 'r' :: 'e' :: natToDigits n) = some (natToDigits n) := by
  have htw : (natToDigits n).takeWhile Char.isDigit = natToDigits n :=
    takeWhile_eq_self_of_all (natToDigits_all_digit n)
  have hne : (natToDigits n).isEmpty = false := by
    cases h : natToDigits n with
    | nil => exact absurd h (natToDigits_ne_nil n)
    | cons c t => rfl
  have hpp : prePrefix? ('p' :: 'r' :: 'e' :: natToDigits n) = some (natToDigits n) := by
    rw [prePrefix?, htw]
    simp only [hne, Bool.false_eq_true, if_false]
  simp only [preScan, hpp]

theorem increment_prerelease_label {v : Version} {n : Nat} (h : v.pre = preLabelStr n)
    (hle : n ≤ i32Max) (i : Int) :
    v.increment_prerelease i = .ok (v.set_pretag ((n : Int) + i)) := by
  rw [Version.increment_prerelease, if_neg (by rw [h]; exact preLabelStr_ne_empty n)]
  rw [h, preLabelStr_data, preScan_label]
  show (if digitsToNat (natToDigits n) ≤ i32Max then
          Except.ok (v.set_pretag ((digitsToNat (natToDigits n) : Int) + i))
        else Except.error ParseError.malformed) =
      Except.ok (v.set_pretag ((n : Int) + i))
  rw [digitsToNat_natToDigits, if_pos hle]

theorem increment_prerelease_empty {v : Version} (h : v.pre = "") (i : Int) :
    v.increment_prerelease i = .ok (v.set_pretag 0) := by
  rw [Version.increment_prerelease, if_pos h]

theorem preCounter_label (n : Nat) : preCounter? (preLabelStr n) = some n := by
  have hdrop : (preLabelStr n).data.drop 3 = natToDigits n := by
    rw [preLabelStr_data]; rfl
  rw [preCounter?, hdrop, digitsToNat_natToDigits, if_pos rfl]

theorem preCounter_eq_some {s : String} {m : Nat} (h : preCounter? s = some m) :
    s = preLabelStr m := by
  rw [preCounter?] at h
  split at h
  · rename_i heq
    have : digitsToNat (s.data.drop 3) = m := by
      injection h with h'
    rw [← this]
    assumption
  · exact absurd h (by simp)

/-! The resolve_collision chain. -/

theorem natCast_add_100 (n : Nat) : (n : Int) + 100 = ((n + 100 : Nat) : Int) := by
  push_cast; ring

theorem set_pretag_zero (v : Version) : v.set_pretag 0 = v.set_pretag ((0 : Nat) : Int) := by
  norm_num

theorem increment_prerelease_label_err {v : Version} {n : Nat} (h : v.pre = preLabelStr n)
    (hgt : i32Max < n) (i : Int) : v.increment_prerelease i = .error .malformed := by
  rw [Version.increment_prerelease, if_neg (by rw [h]; exact preLabelStr_ne_empty n)]
  rw [h, preLabelStr_data, preScan_label]
  show (if digitsToNat (natToDigits n) ≤ i32Max then
          Except.ok (v.set_pretag ((digitsToNat (natToDigits n) : Int) + i))
        else Except.error ParseError.malformed) = Except.error ParseError.malformed
  rw [digitsToNat_natToDigits, if_neg (by omega)]

theorem increment100_shape {v w : Version} (h : v.increment_prerelease 100 = .ok w) :
    ∃ m : Nat, w = v.set_pretag ((m : Nat) : Int) := by
  rw [Version.increment_prerelease] at h
  split at h
  · refine ⟨0, ?_⟩
    cases h
    exact (set_pretag_zero v)
  · rcases hscan : preScan v.pre.data with _ | ds
    · simp only [hscan] at h
      exact Except.noConfusion h
    · simp only [hscan] at h
      by_cases hle : digitsToNat ds ≤ i32Max
      · rw [if_pos hle] at h
        refine ⟨digitsToNat ds + 100, ?_⟩
        have hw : w = v.set_pretag ((digitsToNat ds : Int) + 100) := by
          injection h with h'
          exact h'.symm
        rw [hw, natCast_add_100]
      · rw [if_neg hle] at h
        exact absurd h (by simp)

theorem resolveAux_reach :
    ∀ (k fuel : Nat) (v : Version) (n : Nat) (known : List Version), k < fuel →
      v.pre = preLabelStr n → n + 100 * k ≤ i32Max →
      (∀ j, j < k → v.set_pretag ((n + 100 * j : Nat) : Int) ∈ known) →
      v.set_pretag ((n + 100 * k : Nat) : Int) ∉ known →
      resolveCollisionAux fuel v known = .ok (v.set_pretag ((n + 100 * k : Nat) : Int)) := by
  intro k
  induction k with
  | zero =>
      intro fuel v n known hfuel hpre _ _ hout
      obtain ⟨f, rfl⟩ : ∃ f, fuel = f + 1 := ⟨fuel - 1, by omega⟩
      have hv : v.set_pretag ((n + 100 * 0 : Nat) : Int) = v := by
        simp only [Nat.mul_zero, Nat.add_zero]
        exact set_pretag_self hpre
      rw [hv] at hout ⊢
      rw [resolveCollisionAux, if_neg hout]
  | succ k ih =>
      intro fuel v n known hfuel hpre hbound hmem hout
      obtain ⟨f, rfl⟩ : ∃ f, fuel = f + 1 := ⟨fuel - 1, by omega⟩
      have h0 : v ∈ known := by
        have h00 := hmem 0 (by omega)
        simp only [Nat.mul_zero, Nat.add_zero] at h00
        rwa [set_pretag_self hpre] at h00
      have hinc : v.increment_prerelease 100 = .ok (v.set_pretag ((n + 100 : Nat) : Int)) := by
        rw [increment_prerelease_label hpre (by omega) 100, natCast_add_100]
      rw [resolveCollisionAux, if_pos h0, hinc]
      show resolveCollisionAux f (v.set_pretag ((n + 100 : Nat) : Int)) known = _
      have harg : ∀ j : Nat, n + 100 + 100 * j = n + 100 * (j + 1) := by intro j; ring
      have hres := ih f (v.set_pretag ((n + 100 : Nat) : Int)) (n + 100) known (by omega)
        (set_pretag_pre_natCast v (n + 100)) (by omega)
        (fun j hj => by
          rw [set_pretag_set_pretag, harg j]
          exact hmem (j + 1) (by omega))
        (by
          rw [set_pretag_set_pretag, harg k]
          exact hout)
      rw [hres, set_pretag_set_pretag, harg k]

theorem exists_uncollided (v : Version) (n : Nat) (known : List Version) :
    ∃ k, k ≤ known.length ∧ v.set_pretag ((n + 100 * k : Nat) : Int) ∉ known := by
  by_contra hcon
  push_neg at hcon
  have hinj : Function.Injective (fun j : Nat => v.set_pretag ((n + 100 * j : Nat) : Int)) := by
    intro a b hab
    have := set_pretag_inj hab
    omega
  have hnodup : ((List.range (known.length + 1)).map
      (fun j : Nat => v.set_pretag ((n + 100 * j : Nat) : Int))).Nodup :=
    (List.nodup_range _).map hinj
  have hsub : ((List.range (known.length + 1)).map
      (fun j : Nat => v.set_pretag ((n + 100 * j : Nat) : Int))) ⊆ known := by
    intro x hx
    obtain ⟨j, hj, rfl⟩ := List.mem_map.mp hx
    exact hcon j (by have := List.mem_range.mp hj; omega)
  have hle := (hnodup.subperm hsub).length_le
  simp at hle

theorem resolve_collision_spec (known : List Version) (v : Version) (n : Nat)
    (hpre : v.pre = preLabelStr n) (hbound : n + 100 * known.length ≤ i32Max) :
    ∃ k, k ≤ known.length ∧
      v.resolve_collision known = .ok (v.set_pretag ((n + 100 * k : Nat) : Int)) ∧
      v.set_pretag ((n + 100 * k : Nat) : Int) ∉ known ∧
      (∀ j, j < k → v.set_pretag ((n + 100 * j : Nat) : Int) ∈ known) := by
  obtain ⟨k0, hk0le, hk0⟩ := exists_uncollided v n known
  have hexP : ∃ k, v.set_pretag ((n + 100 * k : Nat) : Int) ∉ known := ⟨k0, hk0⟩
  have hPk : v.set_pretag ((n + 100 * Nat.find hexP : Nat) : Int) ∉ known := Nat.find_spec hexP
  have hkle : Nat.find hexP ≤ k0 := Nat.find_min' hexP hk0
  have hmem : ∀ j, j < Nat.find hexP → v.set_pretag ((n + 100 * j : Nat) : Int) ∈ known := by
    intro j hj
    have := Nat.find_min hexP hj
    simpa using this
  refine ⟨Nat.find hexP, by omega, ?_, hPk, hmem⟩
  exact resolveAux_reach (Nat.find hexP) (known.length + 2) v n known (by omega) hpre
    (by have : Nat.find hexP ≤ known.length := by omega
        have h100 : 100 * Nat.find hexP ≤ 100 * known.length := Nat.mul_le_mul_left 100 this
        omega)
    hmem hPk

/-! The iteration bound: each recursive step consumes a distinct member of the
    known set. -/

theorem collPred_self {v : Version} {n : Nat} (h : v.pre = preLabelStr n) :
    collPred v n v = true := by
  simp [collPred, h, preCounter_label, set_pretag_self h]

theorem collPred_step {v : Version} {n : Nat} (u : Version)
    (hu : collPred (v.set_pretag ((n + 100 : Nat) : Int)) (n + 100) u = true) :
    collPred v n u = true := by
  cases hpc : preCounter? u.pre with
  | none =>
      rw [collPred, hpc] at hu
      simp at hu
  | some m =>
      rw [collPred, hpc] at hu
      rw [collPred, hpc]
      simp only [Bool.and_eq_true, decide_eq_true_eq] at hu ⊢
      obtain ⟨⟨hequ, hle⟩, hmod⟩ := hu
      rw [set_pretag_set_pretag] at hequ
      exact ⟨⟨hequ, by omega⟩, by omega⟩

theorem collPred_next_self {v : Version} {n : Nat} (h : v.pre = preLabelStr n) :
    collPred (v.set_pretag ((n + 100 : Nat) : Int)) (n + 100) v = false := by
  have hlt : ¬(n + 100 ≤ n) := by omega
  simp [collPred, h, preCounter_label, hlt]

theorem collPred_none {w : Version} {m : Nat} {v : Version} (h : preCounter? v.pre = none) :
    collPred w m v = false := by
  simp [collPred, h]

theorem filter_length_mono {α : Type} (l : List α) (p q : α → Bool)
    (himp : ∀ x, q x = true → p x = true) : (l.filter q).length ≤ (l.filter p).length := by
  induction l with
  | nil => simp
  | cons a l ih =>
      by_cases hq : q a = true
      · rw [List.filter_cons_of_pos hq, List.filter_cons_of_pos (himp a hq)]
        simpa using ih
      · rw [List.filter_cons_of_neg (by simpa using hq)]
        by_cases hp : p a = true
        · rw [List.filter_cons_of_pos hp]
          simp only [List.length_cons]
          omega
        · rw [List.filter_cons_of_neg (by simpa using hp)]
          exact ih

theorem filter_length_lt {α : Type} (l : List α) (p q : α → Bool)
    (himp : ∀ x, q x = true → p x = true) (a : α) (ha : a ∈ l) (hpa : p a = true)
    (hqa : q a = false) : (l.filter q).length < (l.filter p).length := by
  induction l with
  | nil => cases ha
  | cons b l ih =>
      rcases List.mem_cons.mp ha with rfl | hb
      · rw [List.filter_cons_of_pos hpa, List.filter_cons_of_neg (by simp [hqa])]
        have := filter_length_mono l p q himp
        simp only [List.length_cons]
        omega
      · by_cases hq : q b = true
        · rw [List.filter_cons_of_pos hq, List.filter_cons_of_pos (himp b hq)]
          simp only [List.length_cons]
          have := ih hb
          omega
        · rw [List.filter_cons_of_neg (by simpa using hq)]
          by_cases hp : p b = true
          · rw [List.filter_cons_of_pos hp]
            simp only [List.length_cons]
            have := ih hb
            omega
          · rw [List.filter_cons_of_neg (by simpa using hp)]
            exact ih hb

theorem resolveIterAux_le (fuel : Nat) :
    ∀ (v : Version) (n : Nat) (tags : List Version), v.pre = preLabelStr n →
      resolveIterAux fuel v tags ≤ (tags.filter (collPred v n)).length + 1 := by
  induction fuel with
  | zero =>
      intro v n tags _
      show (0 : Nat) ≤ _
      omega
  | succ fuel ih =>
      intro v n tags hpre
      rw [resolveIterAux]
      by_cases hv : v ∈ tags
      · rw [if_pos hv]
        by_cases hn : n ≤ i32Max
        · have hinc : v.increment_prerelease 100 = .ok (v.set_pretag ((n + 100 : Nat) : Int)) := by
            rw [increment_prerelease_label hpre hn 100, natCast_add_100]
          rw [hinc]
          show 1 + resolveIterAux fuel (v.set_pretag ((n + 100 : Nat) : Int)) tags ≤ _
          have hrec := ih (v.set_pretag ((n + 100 : Nat) : Int)) (n + 100) tags
            (set_pretag_pre_natCast v (n + 100))
          have hlt : (tags.filter (collPred (v.set_pretag ((n + 100 : Nat) : Int)) (n + 100))).length
              < (tags.filter (collPred v n)).length :=
            filter_length_lt tags _ _ (fun x => collPred_step x) v hv (collPred_self hpre)
              (collPred_next_self hpre)
          omega
        · rw [increment_prerelease_label_err hpre (by omega) 100]
          show (1 : Nat) ≤ _
          omega
      · rw [if_neg hv]
        omega

theorem resolve_iterations_le (v : Version) (tags : List Version) :
    resolve_collision_iterations v tags ≤ tags.length + 1 := by
  rcases hpc : preCounter? v.pre with _ | m
  case some =>
      have hpre := preCounter_eq_some hpc
      have h := resolveIterAux_le (tags.length + 2) v m tags hpre
      have hle := List.length_filter_le (collPred v m) tags
      unfold resolve_collision_iterations
      omega
  case none =>
      show resolveIterAux (tags.length + 1 + 1) v tags ≤ tags.length + 1
      rw [resolveIterAux]
      by_cases hv : v ∈ tags
      · rw [if_pos hv]
        cases hinc : v.increment_prerelease 100 with
        | error e =>
            show (1 : Nat) ≤ _
            omega
        | ok w =>
            show 1 + resolveIterAux (tags.length + 1) w tags ≤ _
            obtain ⟨m, rfl⟩ := increment100_shape hinc
            have hrec := resolveIterAux_le (tags.length + 1) (v.set_pretag ((m : Nat) : Int)) m tags
              (set_pretag_pre_natCast v m)
            have htrue : tags.filter (fun _ => true) = tags :=
              List.filter_eq_self.mpr (by intro a _; rfl)
            have hlt : (tags.filter (collPred (v.set_pretag ((m : Nat) : Int)) m)).length
                < tags.length := by
              have := filter_length_lt tags (fun _ => true)
                (collPred (v.set_pretag ((m : Nat) : Int)) m) (fun x _ => rfl) v hv rfl
                (collPred_none hpc)
              rwa [htrue] at this
            omega
      · rw [if_neg hv]
        omega

/-! Parser and printer round trip. -/

theorem dropWhile_of_takeWhile_nil {p : Char → Bool} {l : List Char}
    (h : l.takeWhile p = []) : l.dropWhile p = l := by
  cases l with
  | nil => rfl
  | cons c t =>
      rw [List.takeWhile_cons] at h
      by_cases hc : p c = true
      · rw [if_pos hc] at h
        exact absurd h (by simp)
      · rw [List.dropWhile_cons, if_neg hc]

theorem natToDigits_isEmpty (n : Nat) : (natToDigits n).isEmpty = false := by
  cases h : natToDigits n with
  | nil => exact absurd h (natToDigits_ne_nil n)
  | cons c t => rfl

theorem parseNumField_digits (n : Nat) (rest : List Char) (hn : n ≤ u64Max)
    (hrest : rest.takeWhile Char.isDigit = []) :
    parseNumField (natToDigits n ++ rest) = some (n, rest) := by
  have hall : ∀ c ∈ natToDigits n, Char.isDigit c = true := natToDigits_all_digit n
  have htake : (natToDigits n ++ rest).takeWhile Char.isDigit = natToDigits n := by
    rw [takeWhile_append_of_all hall, hrest, List.append_nil]
  have hdrop : (natToDigits n ++ rest).dropWhile Char.isDigit = rest := by
    rw [dropWhile_append_of_all hall]
    exact dropWhile_of_takeWhile_nil hrest
  rw [parseNumField]
  simp only [htake, hdrop, natToDigits_isEmpty, Bool.false_eq_true, if_false]
  rw [if_neg (natToDigits_no_leading_zero n), digitsToNat_natToDigits, if_pos hn]

theorem splitDots_ne_nil (l : List Char) : splitDots l ≠ [] := by
  cases l with
  | nil => simp [splitDots]
  | cons c rest =>
      rw [splitDots]
      by_cases hc : c = '.'
      · rw [if_pos hc]; simp
      · rw [if_neg hc]
        cases h : splitDots rest with
        | nil => simp
        | cons g gs => simp

theorem mem_splitDots {c : Char} {l : List Char} (hc : c ∈ l) :
    c = '.' ∨ ∃ g ∈ splitDots l, c ∈ g := by
  induction l with
  | nil => cases hc
  | cons a rest ih =>
      rw [splitDots]
      by_cases ha : a = '.'
      · rw [if_pos ha]
        rcases List.mem_cons.mp hc with rfl | hcr
        · exact Or.inl ha
        · rcases ih hcr with h | ⟨g, hg, hcg⟩
          · exact Or.inl h
          · exact Or.inr ⟨g, by simp [hg], hcg⟩
      · rw [if_neg ha]
        cases hsp : splitDots rest with
        | nil => exact absurd hsp (splitDots_ne_nil rest)
        | cons g0 gs =>
            rcases List.mem_cons.mp hc with rfl | hcr
            · exact Or.inr ⟨c :: g0, by simp, by simp⟩
            · rcases ih hcr with h | ⟨g, hg, hcg⟩
              · exact Or.inl h
              · rw [hsp] at hg
                rcases List.mem_cons.mp hg with rfl | hgs
                · exact Or.inr ⟨a :: g, by simp, by simp [hcg]⟩
                · exact Or.inr ⟨g, by simp [hgs], hcg⟩

theorem isIdentChar_ne_plus {c : Char} (h : isIdentChar c = true) : c ≠ '+' := by
  intro hc
  rw [hc] at h
  exact absurd h (by decide)

theorem validPre_no_plus {l : List Char} (h : validPre l = true) :
    ∀ c ∈ l, (decide (c ≠ '+')) = true := by
  intro c hc
  rcases mem_splitDots hc with rfl | ⟨g, hg, hcg⟩
  · decide
  · rw [validPre, List.all_eq_true] at h
    have hgv := h g hg
    rw [validPreIdent] at hgv
    simp only [Bool.and_eq_true] at hgv
    have : isIdentChar c = true := by
      have := hgv.1.2
      rw [List.all_eq_true] at this
      exact this c hcg
    simp [isIdentChar_ne_plus this]


theorem parseTriple_display (M m p : Nat) (tail : List Char)
    (hM : M ≤ u64Max) (hm : m ≤ u64Max) (hp : p ≤ u64Max)
    (htail : tail.takeWhile Char.isDigit = []) :
    parseTriple (natToDigits M ++ '.' :: (natToDigits m ++ '.' :: (natToDigits p ++ tail)))
      = some (M, m, p, tail) := by
  have h1 := parseNumField_digits M ('.' :: (natToDigits m ++ '.' :: (natToDigits p ++ tail)))
    hM (by rfl)
  have h2 := parseNumField_digits m ('.' :: (natToDigits p ++ tail)) hm (by rfl)
  have h3 := parseNumField_digits p tail hp htail
  simp only [parseTriple, h1, h2, h3]

theorem parseCore_display (v : Version) (hwf : v.Wf) :
    parseVersionCore (displayChars v) = some v := by
  obtain ⟨hM, hm, hp, hpre, hbuild⟩ := hwf
  by_cases hpe : v.pre = ""
  · by_cases hbe : v.build = ""
    · have hd : displayChars v =
          natToDigits v.major ++ '.' ::
            (natToDigits v.minor ++ '.' :: (natToDigits v.patch ++ [])) := by
        simp [displayChars, hpe, hbe, List.append_assoc]
      have ht := parseTriple_display v.major v.minor v.patch [] hM hm hp (by rfl)
      rw [hd]
      simp only [parseVersionCore, ht]
      obtain ⟨M, m, p, pre, build⟩ := v
      simp only at hpe hbe
      rw [hpe, hbe]
    · have hvb : validBuild v.build.data = true := by
        rcases hbuild with h | h
        · exact absurd h hbe
        · exact h
      have hd : displayChars v =
          natToDigits v.major ++ '.' ::
            (natToDigits v.minor ++ '.' ::
              (natToDigits v.patch ++ ('+' :: v.build.data))) := by
        simp [displayChars, hpe, hbe, List.append_assoc]
      have ht := parseTriple_display v.major v.minor v.patch ('+' :: v.build.data)
        hM hm hp (by rfl)
      rw [hd]
      simp only [parseVersionCore, ht, hvb, if_true]
      obtain ⟨M, m, p, pre, build⟩ := v
      simp only at hpe
      rw [hpe]
  · have hvp : validPre v.pre.data = true := by
      rcases hpre with h | h
      · exact absurd h hpe
      · exact h
    have hplus := validPre_no_plus hvp
    by_cases hbe : v.build = ""
    · have hd : displayChars v =
          natToDigits v.major ++ '.' ::
            (natToDigits v.minor ++ '.' ::
              (natToDigits v.patch ++ ('-' :: (v.pre.data ++ [])))) := by
        simp [displayChars, hpe, hbe, List.append_assoc]
      have ht := parseTriple_display v.major v.minor v.patch ('-' :: (v.pre.data ++ []))
        hM hm hp (by rfl)
      have htake : (v.pre.data ++ []).takeWhile (fun c => decide (c ≠ '+')) = v.pre.data := by
        rw [takeWhile_append_of_all hplus]
        simp
      have hdrop : (v.pre.data ++ []).dropWhile (fun c => decide (c ≠ '+')) = [] := by
        rw [dropWhile_append_of_all hplus]
        rfl
      rw [hd]
      simp only [parseVersionCore, ht, htake, hdrop, hvp, if_true]
      obtain ⟨M, m, p, pre, build⟩ := v
      simp only at hbe
      rw [hbe]
    · have hvb : validBuild v.build.data = true := by
        rcases hbuild with h | h
        · exact absurd h hbe
        · exact h
      have hd : displayChars v =
          natToDigits v.major ++ '.' ::
            (natToDigits v.minor ++ '.' ::
              (natToDigits v.patch ++ ('-' :: (v.pre.data ++ '+' :: v.build.data)))) := by
        simp [displayChars, hpe, hbe, List.append_assoc]
      have ht := parseTriple_display v.major v.minor v.patch
        ('-' :: (v.pre.data ++ '+' :: v.build.data)) hM hm hp (by rfl)
      have htake : (v.pre.data ++ '+' :: v.build.data).takeWhile
          (fun c => decide (c ≠ '+')) = v.pre.data := by
        rw [takeWhile_append_of_all hplus]
        simp [List.takeWhile_cons]
      have hdrop : (v.pre.data ++ '+' :: v.build.data).dropWhile
          (fun c => decide (c ≠ '+')) = '+' :: v.build.data := by
        rw [dropWhile_append_of_all hplus]
        simp [List.dropWhile_cons]
      rw [hd]
      simp only [parseVersionCore, ht, htake, hdrop, hvp, hvb, if_true]

theorem parse_v_cons (c : Char) (v : Version) (hwf : v.Wf) :
    Version.parse_v ⟨c :: displayChars v⟩ = .ok v := by
  show Version.parse ⟨(c :: displayChars v).drop 1⟩ = .ok v
  show Version.parse ⟨displayChars v⟩ = .ok v
  rw [Version.parse]
  simp only [parseCore_display v hwf]

theorem parse_v_print (v : Version) (hwf : v.Wf) : Version.parse_v v.print = .ok v :=
  parse_v_cons 'v' v hwf

/-! Characterization of the unanchored scan: success means the label contains
    a pre-digits substring somewhere. -/

theorem prePrefix?_spec {l ds : List Char} (h : prePrefix? l = some ds) :
    ∃ rest2, l = 'p' :: 'r' :: 'e' :: rest2 ∧ ds = rest2.takeWhile Char.isDigit ∧ ds ≠ [] := by
  unfold prePrefix? at h
  split at h
  · rename_i rest2
    by_cases hempty : (rest2.takeWhile Char.isDigit).isEmpty = true
    · rw [if_pos hempty] at h
      exact Option.noConfusion h
    · rw [if_neg hempty] at h
      injection h with h'
      refine ⟨rest2, rfl, h'.symm, ?_⟩
      rw [h'] at hempty
      intro hnil
      rw [hnil] at hempty
      exact hempty rfl
  · exact Option.noConfusion h

theorem takeWhile_all {p : Char → Bool} (l : List Char) :
    ∀ c ∈ l.takeWhile p, p c = true := by
  intro c hc
  exact List.mem_takeWhile_imp hc

theorem preScan_some_iff : ∀ l : List Char,
    (∃ ds, preScan l = some ds) ↔
      ∃ l1 ds l2, l = l1 ++ 'p' :: 'r' :: 'e' :: (ds ++ l2) ∧ ds ≠ [] ∧
        ds.all Char.isDigit = true := by
  intro l
  induction l with
  | nil =>
      simp [preScan]
  | cons c rest ih =>
      rw [preScan]
      cases hpp : prePrefix? (c :: rest) with
      | some ds0 =>
          simp only [true_and]
          constructor
          · intro _
            obtain ⟨rest2, hshape, hds, hne⟩ := prePrefix?_spec hpp
            refine ⟨[], rest2.takeWhile Char.isDigit, rest2.dropWhile Char.isDigit, ?_, ?_, ?_⟩
            · rw [List.nil_append, hshape, List.takeWhile_append_dropWhile]
            · rw [← hds]; exact hne
            · rw [List.all_eq_true]
              exact takeWhile_all rest2
          · intro _
            exact ⟨ds0, rfl⟩
      | none =>
          have hstep : (∃ ds, preScan rest = some ds) ↔ _ := ih
          constructor
          · intro hex
            obtain ⟨l1, ds, l2, hdecomp, hne, hdig⟩ := hstep.mp hex
            exact ⟨c :: l1, ds, l2, by rw [hdecomp, List.cons_append], hne, hdig⟩
          · intro ⟨l1, ds, l2, hdecomp, hne, hdig⟩
            cases l1 with
            | nil =>
                exfalso
                simp only [List.nil_append] at hdecomp
                rw [hdecomp] at hpp
                rw [prePrefix?] at hpp
                have htw : (ds ++ l2).takeWhile Char.isDigit = ds ++ l2.takeWhile Char.isDigit :=
                  takeWhile_append_of_all (fun x hx => by
                    rw [List.all_eq_true] at hdig
                    exact hdig x hx) l2
                rw [htw] at hpp
                have : (ds ++ l2.takeWhile Char.isDigit).isEmpty = false := by
                  cases ds with
                  | nil => exact absurd rfl hne
                  | cons d t => rfl
                rw [this] at hpp
                simp at hpp
            | cons c0 l1' =>
                have : rest = l1' ++ 'p' :: 'r' :: 'e' :: (ds ++ l2) := by
                  rw [List.cons_append] at hdecomp
                  injection hdecomp with _ h2
                exact hstep.mpr ⟨l1', ds, l2, this, hne, hdig⟩

/-! Laws of the comparator: an equal result means equal values, the comparator
    swaps under argument exchange, and strict comparisons chain. -/

theorem char_toNat_inj {a b : Char} (h : a.toNat = b.toNat) : a = b :=
  Char.ext (UInt32.ext h)

theorem natCompare_self (n : Nat) : compare n n = .eq := Nat.compare_eq_eq.mpr rfl

theorem natCompare_swap (m n : Nat) : (compare m n).swap = compare n m := by
  rcases Nat.lt_trichotomy m n with h | h | h
  · rw [Nat.compare_eq_lt.mpr h, Nat.compare_eq_gt.mpr h]
    rfl
  · subst h
    rw [natCompare_self]
    rfl
  · rw [Nat.compare_eq_gt.mpr h, Nat.compare_eq_lt.mpr h]
    rfl

theorem then_eq_lt {a b : Ordering} : a.then b = .lt ↔ a = .lt ∨ (a = .eq ∧ b = .lt) := by
  cases a <;> cases b <;> simp [Ordering.then]

theorem then_eq_eq {a b : Ordering} : a.then b = .eq ↔ a = .eq ∧ b = .eq := by
  cases a <;> cases b <;> simp [Ordering.then]

theorem then_eq_gt {a b : Ordering} : a.then b = .gt ↔ a = .gt ∨ (a = .eq ∧ b = .gt) := by
  cases a <;> cases b <;> simp [Ordering.then]

theorem swap_then (a b : Ordering) : (a.then b).swap = a.swap.then b.swap := by
  cases a <;> cases b <;> rfl

theorem then_lt_left (o : Ordering) : (Ordering.lt).then o = .lt := rfl

theorem then_gt_left (o : Ordering) : (Ordering.gt).then o = .gt := rfl

theorem then_eq_left (o : Ordering) : (Ordering.eq).then o = o := rfl

theorem lexCompare_eq_iff : ∀ x y : List Char, lexCompare x y = .eq ↔ x = y := by
  intro x
  induction x with
  | nil => intro y; cases y <;> simp [lexCompare]
  | cons a x ih =>
      intro y
      cases y with
      | nil => simp [lexCompare]
      | cons b y =>
          rw [lexCompare, then_eq_eq]
          constructor
          · rintro ⟨h1, h2⟩
            have hab : a = b := char_toNat_inj (Nat.compare_eq_eq.mp h1)
            rw [hab, (ih y).mp h2]
          · intro h
            injection h with h1 h2
            subst h1
            subst h2
            exact ⟨natCompare_self _, (ih x).mpr rfl⟩

theorem lexCompare_swap : ∀ x y : List Char, (lexCompare x y).swap = lexCompare y x := by
  intro x
  induction x with
  | nil => intro y; cases y <;> rfl
  | cons a x ih =>
      intro y
      cases y with
      | nil => rfl
      | cons b y =>
          rw [lexCompare, lexCompare, swap_then, natCompare_swap, ih y]

theorem lexCompare_lt_trans :
    ∀ x y z : List Char, lexCompare x y = .lt → lexCompare y z = .lt → lexCompare x z = .lt := by
  intro x
  induction x with
  | nil =>
      intro y z hxy hyz
      cases z with
      | nil =>
          cases y with
          | nil => exact absurd hxy (by simp [lexCompare])
          | cons b y => exact absurd hyz (by simp [lexCompare])
      | cons c z => simp [lexCompare]
  | cons a x ih =>
      intro y z hxy hyz
      cases y with
      | nil => exact absurd hxy (by simp [lexCompare])
      | cons b y =>
          cases z with
          | nil => exact absurd hyz (by simp [lexCompare])
          | cons c z =>
              rw [lexCompare, then_eq_lt] at hxy hyz ⊢
              rcases hxy with h1 | ⟨h1, h2⟩
              · rcases hyz with g1 | ⟨g1, g2⟩
                · left
                  rw [Nat.compare_eq_lt] at h1 g1 ⊢
                  omega
                · left
                  rw [Nat.compare_eq_lt] at h1 ⊢
                  rw [Nat.compare_eq_eq] at g1
                  omega
              · rcases hyz with g1 | ⟨g1, g2⟩
                · left
                  rw [Nat.compare_eq_lt] at g1 ⊢
                  rw [Nat.compare_eq_eq] at h1
                  omega
                · right
                  rw [Nat.compare_eq_eq] at h1 g1
                  exact ⟨Nat.compare_eq_eq.mpr (h1.trans g1), ih y z h2 g2⟩

theorem cmpNumericIdent_swap (x y : List Char) :
    (cmpNumericIdent x y).swap = cmpNumericIdent y x := by
  rw [cmpNumericIdent, cmpNumericIdent, swap_then, natCompare_swap, natCompare_swap]

theorem cmpNumericIdent_lt_trans {x y z : List Char} (hxy : cmpNumericIdent x y = .lt)
    (hyz : cmpNumericIdent y z = .lt) : cmpNumericIdent x z = .lt := by
  rw [cmpNumericIdent, then_eq_lt] at hxy hyz ⊢
  rcases hxy with h1 | ⟨h1, h2⟩ <;> rcases hyz with g1 | ⟨g1, g2⟩ <;>
    simp only [Nat.compare_eq_lt, Nat.compare_eq_eq] at * <;> omega

theorem isDigit_toNat {c : Char} (h : c.isDigit = true) : 48 ≤ c.toNat ∧ c.toNat ≤ 57 := by
  rw [Char.isDigit] at h
  simp only [Bool.and_eq_true, decide_eq_true_eq] at h
  obtain ⟨h1, h2⟩ := h
  exact ⟨h1, h2⟩

theorem charVal_lt_ten {c : Char} (h : c.isDigit = true) : charVal c < 10 := by
  have := isDigit_toNat h
  rw [charVal]
  omega

theorem isDigit_48_le {c : Char} (h : c.isDigit = true) : 48 ≤ c.toNat :=
  (isDigit_toNat h).1

theorem charVal_digit_inj {c d : Char} (hc : c.isDigit = true) (hd : d.isDigit = true)
    (h : charVal c = charVal d) : c = d := by
  have h1 := isDigit_48_le hc
  have h2 := isDigit_48_le hd
  rw [charVal, charVal] at h
  exact char_toNat_inj (by omega)

theorem digitsToNat_eq_digitsVal (l : List Char) : digitsToNat l = digitsVal (l.map charVal) := by
  rw [digitsToNat, digitsVal, List.foldl_map]

theorem digits_eq_of_val_len : ∀ x y : List Char, x.all Char.isDigit = true →
    y.all Char.isDigit = true → digitsToNat x = digitsToNat y → x.length = y.length → x = y := by
  intro x
  induction x with
  | nil =>
      intro y _ _ _ hlen
      cases y with
      | nil => rfl
      | cons b t => simp at hlen
  | cons a x ih =>
      intro y hx hy hval hlen
      cases y with
      | nil => simp at hlen
      | cons b y =>
          rw [List.all_cons, Bool.and_eq_true] at hx hy
          have hlen' : x.length = y.length := by simpa using hlen
          rw [digitsToNat_eq_digitsVal, digitsToNat_eq_digitsVal, List.map_cons, List.map_cons,
            digitsVal_cons, digitsVal_cons] at hval
          simp only [List.length_map] at hval
          rw [hlen'] at hval
          have hxlt : digitsVal (x.map charVal) < 10 ^ y.length := by
            have h10 := digitsVal_lt (x.map charVal) (by
              intro d hd
              obtain ⟨c, hc, rfl⟩ := List.mem_map.mp hd
              exact charVal_lt_ten (by
                rw [List.all_eq_true] at hx
                exact hx.2 c hc))
            rwa [List.length_map, hlen'] at h10
          have hylt : digitsVal (y.map charVal) < 10 ^ y.length := by
            have h10 := digitsVal_lt (y.map charVal) (by
              intro d hd
              obtain ⟨c, hc, rfl⟩ := List.mem_map.mp hd
              exact charVal_lt_ten (by
                rw [List.all_eq_true] at hy
                exact hy.2 c hc))
            rwa [List.length_map] at h10
          obtain ⟨B, hB⟩ : ∃ B, 10 ^ y.length = B := ⟨_, rfl⟩
          rw [hB] at hval hxlt hylt
          have hhead : charVal a = charVal b := by
            rcases Nat.lt_trichotomy (charVal a) (charVal b) with h | h | h
            · exfalso
              have hm : (charVal a + 1) * B ≤ charVal b * B :=
                Nat.mul_le_mul_right _ (by omega)
              have hs : (charVal a + 1) * B = charVal a * B + B := by ring
              omega
            · exact h
            · exfalso
              have hm : (charVal b + 1) * B ≤ charVal a * B :=
                Nat.mul_le_mul_right _ (by omega)
              have hs : (charVal b + 1) * B = charVal b * B + B := by ring
              omega
          have htail : digitsToNat x = digitsToNat y := by
            rw [digitsToNat_eq_digitsVal, digitsToNat_eq_digitsVal]
            rw [hhead] at hval
            omega
          rw [charVal_digit_inj hx.1 hy.1 hhead, ih y hx.2 hy.2 htail hlen']

theorem cmpIdent_eq_iff : ∀ x y : List Char, cmpIdent x y = .eq ↔ x = y := by
  intro x y
  rw [cmpIdent]
  by_cases hx : x.all Char.isDigit = true
  · by_cases hy : y.all Char.isDigit = true
    · rw [if_pos hx, if_pos hy, cmpNumericIdent, then_eq_eq]
      constructor
      · rintro ⟨h1, h2⟩
        exact digits_eq_of_val_len x y hx hy (Nat.compare_eq_eq.mp h1) (Nat.compare_eq_eq.mp h2)
      · rintro rfl
        exact ⟨natCompare_self _, natCompare_self _⟩
    · rw [if_pos hx, if_neg hy]
      constructor
      · intro h
        exact absurd h (by simp)
      · rintro rfl
        exact absurd hx hy
  · by_cases hy : y.all Char.isDigit = true
    · rw [if_neg hx, if_pos hy]
      constructor
      · intro h
        exact absurd h (by simp)
      · rintro rfl
        exact absurd hy hx
    · rw [if_neg hx, if_neg hy]
      exact lexCompare_eq_iff x y

theorem cmpIdent_swap (x y : List Char) : (cmpIdent x y).swap = cmpIdent y x := by
  rw [cmpIdent, cmpIdent]
  by_cases hx : x.all Char.isDigit = true
  · by_cases hy : y.all Char.isDigit = true
    · rw [if_pos hx, if_pos hy, if_pos hy, if_pos hx, cmpNumericIdent_swap]
    · rw [if_pos hx, if_neg hy, if_neg hy, if_pos hx]
      rfl
  · by_cases hy : y.all Char.isDigit = true
    · rw [if_neg hx, if_pos hy, if_pos hy, if_neg hx]
      rfl
    · rw [if_neg hx, if_neg hy, if_neg hy, if_neg hx, lexCompare_swap]

theorem cmpIdent_lt_trans :
    ∀ x y z : List Char, cmpIdent x y = .lt → cmpIdent y z = .lt → cmpIdent x z = .lt := by
  intro x y z hxy hyz
  rw [cmpIdent] at hxy hyz ⊢
  by_cases hx : x.all Char.isDigit = true
  all_goals by_cases hy : y.all Char.isDigit = true
  all_goals by_cases hz : z.all Char.isDigit = true
  all_goals (try simp [hx, hy, hz] at hxy hyz ⊢)
  all_goals first
    | exact cmpNumericIdent_lt_trans hxy hyz
    | exact lexCompare_lt_trans x y z hxy hyz

theorem cmpIdentList_eq_iff :
    ∀ x y : List (List Char), cmpIdentList x y = .eq ↔ x = y := by
  intro x
  induction x with
  | nil => intro y; cases y <;> simp [cmpIdentList]
  | cons a x ih =>
      intro y
      cases y with
      | nil => simp [cmpIdentList]
      | cons b y =>
          rw [cmpIdentList, then_eq_eq]
          constructor
          · rintro ⟨h1, h2⟩
            rw [(cmpIdent_eq_iff a b).mp h1, (ih y).mp h2]
          · intro h
            injection h with h1 h2
            subst h1
            subst h2
            exact ⟨(cmpIdent_eq_iff a a).mpr rfl, (ih x).mpr rfl⟩

theorem cmpIdentList_swap :
    ∀ x y : List (List Char), (cmpIdentList x y).swap = cmpIdentList y x := by
  intro x
  induction x with
  | nil => intro y; cases y <;> rfl
  | cons a x ih =>
      intro y
      cases y with
      | nil => rfl
      | cons b y => rw [cmpIdentList, cmpIdentList, swap_then, cmpIdent_swap, ih y]

theorem cmpIdentList_lt_trans : ∀ x y z : List (List Char),
    cmpIdentList x y = .lt → cmpIdentList y z = .lt → cmpIdentList x z = .lt := by
  intro x
  induction x with
  | nil =>
      intro y z hxy hyz
      cases z with
      | nil =>
          cases y with
          | nil => exact absurd hxy (by simp [cmpIdentList])
          | cons b y => exact absurd hyz (by simp [cmpIdentList])
      | cons c z => simp [cmpIdentList]
  | cons a x ih =>
      intro y z hxy hyz
      cases y with
      | nil => exact absurd hxy (by simp [cmpIdentList])
      | cons b y =>
          cases z with
          | nil => exact absurd hyz (by simp [cmpIdentList])
          | cons c z =>
              rw [cmpIdentList, then_eq_lt] at hxy hyz ⊢
              rcases hxy with h1 | ⟨h1, h2⟩
              · rcases hyz with g1 | ⟨g1, g2⟩
                · exact Or.inl (cmpIdent_lt_trans a b c h1 g1)
                · left
                  rw [← (cmpIdent_eq_iff b c).mp g1]
                  exact h1
              · rcases hyz with g1 | ⟨g1, g2⟩
                · left
                  rw [(cmpIdent_eq_iff a b).mp h1]
                  exact g1
                · right
                  refine ⟨?_, ih y z h2 g2⟩
                  rw [cmpIdent_eq_iff]
                  exact ((cmpIdent_eq_iff a b).mp h1).trans ((cmpIdent_eq_iff b c).mp g1)

theorem splitDots_inj : ∀ {l1 l2 : List Char}, splitDots l1 = splitDots l2 → l1 = l2 := by
  intro l1
  induction l1 with
  | nil =>
      intro l2 h
      cases l2 with
      | nil => rfl
      | cons c rest =>
          rw [splitDots, splitDots] at h
          by_cases hc : c = '.'
          · rw [if_pos hc] at h
            injection h with h1 h2
            exact absurd h2.symm (splitDots_ne_nil rest)
          · rw [if_neg hc] at h
            cases hs : splitDots rest with
            | nil => exact absurd hs (splitDots_ne_nil rest)
            | cons g gs =>
                rw [hs] at h
                injection h with h1 h2
                exact absurd h1 (by simp)
  | cons c rest ih =>
      intro l2 h
      cases l2 with
      | nil =>
          rw [splitDots, splitDots] at h
          by_cases hc : c = '.'
          · rw [if_pos hc] at h
            injection h with h1 h2
            exact absurd h2 (splitDots_ne_nil rest)
          · rw [if_neg hc] at h
            cases hs : splitDots rest with
            | nil => exact absurd hs (splitDots_ne_nil rest)
            | cons g gs =>
                rw [hs] at h
                injection h with h1 h2
                exact absurd h1 (by simp)
      | cons c' rest' =>
          rw [splitDots, splitDots] at h
          by_cases hc : c = '.'
          · by_cases hc' : c' = '.'
            · rw [if_pos hc, if_pos hc'] at h
              injection h with h1 h2
              rw [hc, hc', ih h2]
            · rw [if_pos hc, if_neg hc'] at h
              cases hs : splitDots rest' with
              | nil => exact absurd hs (splitDots_ne_nil rest')
              | cons g gs =>
                  rw [hs] at h
                  injection h with h1 h2
                  exact absurd h1 (by simp)
          · by_cases hc' : c' = '.'
            · rw [if_neg hc, if_pos hc'] at h
              cases hs : splitDots rest with
              | nil => exact absurd hs (splitDots_ne_nil rest)
              | cons g gs =>
                  rw [hs] at h
                  injection h with h1 h2
                  exact absurd h1 (by simp)
            · rw [if_neg hc, if_neg hc'] at h
              cases hs : splitDots rest with
              | nil => exact absurd hs (splitDots_ne_nil rest)
              | cons g gs =>
                  cases hs' : splitDots rest' with
                  | nil => exact absurd hs' (splitDots_ne_nil rest')
                  | cons g' gs' =>
                      rw [hs, hs'] at h
                      injection h with h1 h2
                      injection h1 with hc1 hg
                      have hrest : splitDots rest = splitDots rest' := by
                        rw [hs, hs', hg, h2]
                      rw [hc1, ih hrest]

theorem string_data_inj {x y : String} (h : x.data = y.data) : x = y := by
  cases x
  cases y
  exact congrArg String.mk h

theorem cmpPre_eq_iff (x y : String) : cmpPre x y = .eq ↔ x = y := by
  rw [cmpPre]
  by_cases hx : x = ""
  · by_cases hy : y = ""
    · rw [if_pos hx, if_pos hy]
      simp [hx, hy]
    · rw [if_pos hx, if_neg hy]
      constructor
      · intro h
        exact absurd h (by simp)
      · intro h
        exact absurd (h ▸ hx) hy
  · by_cases hy : y = ""
    · rw [if_neg hx, if_pos hy]
      constructor
      · intro h
        exact absurd h (by simp)
      · intro h
        exact absurd (h ▸ hy) hx
    · rw [if_neg hx, if_neg hy, cmpIdentList_eq_iff]
      constructor
      · intro h
        exact string_data_inj (splitDots_inj h)
      · rintro rfl
        rfl

theorem cmpPre_swap (x y : String) : (cmpPre x y).swap = cmpPre y x := by
  rw [cmpPre, cmpPre]
  by_cases hx : x = ""
  · by_cases hy : y = ""
    · rw [if_pos hx, if_pos hy, if_pos hy, if_pos hx]
      rfl
    · rw [if_pos hx, if_neg hy, if_neg hy, if_pos hx]
      rfl
  · by_cases hy : y = ""
    · rw [if_neg hx, if_pos hy, if_pos hy, if_neg hx]
      rfl
    · rw [if_neg hx, if_neg hy, if_neg hy, if_neg hx, cmpIdentList_swap]

theorem cmpPre_lt_trans (x y z : String) (hxy : cmpPre x y = .lt) (hyz : cmpPre y z = .lt) :
    cmpPre x z = .lt := by
  rw [cmpPre] at hxy hyz ⊢
  by_cases hx : x = ""
  · rw [if_pos hx] at hxy
    by_cases hy : y = ""
    · rw [if_pos hy] at hxy
      exact absurd hxy (by simp)
    · rw [if_neg hy] at hxy
      exact absurd hxy (by simp)
  · rw [if_neg hx] at hxy ⊢
    by_cases hy : y = ""
    · rw [if_pos hy] at hyz
      by_cases hz : z = ""
      · rw [if_pos hz] at hyz
        exact absurd hyz (by simp)
      · rw [if_neg hz] at hyz
        exact absurd hyz (by simp)
    · rw [if_neg hy] at hyz
      by_cases hz : z = ""
      · rw [if_pos hz]
      · rw [if_neg hz] at hyz ⊢
        rw [if_neg hy] at hxy
        exact cmpIdentList_lt_trans _ _ _ hxy hyz

theorem cmpBuild_eq_iff (x y : String) : cmpBuild x y = .eq ↔ x = y := by
  rw [cmpBuild, cmpIdentList_eq_iff]
  constructor
  · intro h
    exact string_data_inj (splitDots_inj h)
  · rintro rfl
    rfl

theorem cmpBuild_swap (x y : String) : (cmpBuild x y).swap = cmpBuild y x := by
  rw [cmpBuild, cmpBuild, cmpIdentList_swap]

theorem cmpBuild_lt_trans (x y z : String) (hxy : cmpBuild x y = .lt)
    (hyz : cmpBuild y z = .lt) : cmpBuild x z = .lt := by
  rw [cmpBuild] at hxy hyz ⊢
  exact cmpIdentList_lt_trans _ _ _ hxy hyz

theorem cmpVersion_eq_iff (a b : Version) : cmpVersion a b = .eq ↔ a = b := by
  rw [cmpVersion]
  simp only [then_eq_eq, Nat.compare_eq_eq, cmpPre_eq_iff, cmpBuild_eq_iff]
  constructor
  · rintro ⟨h1, h2, h3, h4, h5⟩
    cases a
    cases b
    simp_all
  · rintro rfl
    exact ⟨rfl, rfl, rfl, rfl, rfl⟩

theorem cmpVersion_refl (a : Version) : cmpVersion a a = .eq := (cmpVersion_eq_iff a a).mpr rfl

theorem cmpVersion_swap (a b : Version) : (cmpVersion a b).swap = cmpVersion b a := by
  rw [cmpVersion, cmpVersion, swap_then, swap_then, swap_then, swap_then,
    natCompare_swap, natCompare_swap, natCompare_swap, cmpPre_swap, cmpBuild_swap]

theorem cmpVersion_lt_trans {a b c : Version} (hab : cmpVersion a b = .lt)
    (hbc : cmpVersion b c = .lt) : cmpVersion a c = .lt := by
  rw [cmpVersion] at hab hbc ⊢
  simp only [then_eq_lt, Nat.compare_eq_lt, Nat.compare_eq_eq, cmpPre_eq_iff] at hab hbc ⊢
  rcases hab with h1 | ⟨e1, hab⟩
  · rcases hbc with g1 | ⟨f1, _⟩
    · left; omega
    · left; omega
  · rcases hbc with g1 | ⟨f1, hbc⟩
    · left; omega
    · right
      refine ⟨by omega, ?_⟩
      rcases hab with h2 | ⟨e2, hab⟩
      · rcases hbc with g2 | ⟨f2, _⟩
        · left; omega
        · left; omega
      · rcases hbc with g2 | ⟨f2, hbc⟩
        · left; omega
        · right
          refine ⟨by omega, ?_⟩
          rcases hab with h3 | ⟨e3, hab⟩
          · rcases hbc with g3 | ⟨f3, _⟩
            · left; omega
            · left; omega
          · rcases hbc with g3 | ⟨f3, hbc⟩
            · left; omega
            · right
              refine ⟨by omega, ?_⟩
              rcases hab with h4 | ⟨e4, hab⟩
              · rcases hbc with g4 | ⟨f4, hbc2⟩
                · left
                  exact cmpPre_lt_trans _ _ _ h4 g4
                · left
                  rw [← f4]
                  exact h4
              · rcases hbc with g4 | ⟨f4, hbc2⟩
                · left
                  rw [e4]
                  exact g4
                · right
                  exact ⟨e4.trans f4, cmpBuild_lt_trans _ _ _ hab hbc2⟩

theorem swap_eq_gt {o : Ordering} : o.swap = .gt ↔ o = .lt := by
  cases o <;> simp [Ordering.swap]

theorem cmpVersion_not_gt_trans {a b c : Version} (h1 : cmpVersion a b ≠ .gt)
    (h2 : cmpVersion b c ≠ .gt) : cmpVersion a c ≠ .gt := by
  cases hab : cmpVersion a b with
  | gt => exact absurd hab h1
  | eq =>
      rw [(cmpVersion_eq_iff a b).mp hab]
      exact h2
  | lt =>
      cases hbc : cmpVersion b c with
      | gt => exact absurd hbc h2
      | eq =>
          rw [← (cmpVersion_eq_iff b c).mp hbc]
          rw [hab]
          simp
      | lt =>
          rw [cmpVersion_lt_trans hab hbc]
          simp

theorem cmpVersion_not_lt_flip {a b : Version} (h : cmpVersion a b ≠ .lt) :
    cmpVersion b a ≠ .gt := by
  intro hgt
  rw [← cmpVersion_swap a b, swap_eq_gt] at hgt
  exact h hgt

theorem cmpVersion_lt_not_gt {a b : Version} (h : cmpVersion a b = .lt) :
    cmpVersion a b ≠ .gt := by
  rw [h]
  simp

/-! Iterator::max. -/

theorem foldl_maxStep_some : ∀ (l : List Version) (a : Version),
    ∃ r, l.foldl maxStep (some a) = some r ∧ (r = a ∨ r ∈ l) ∧ cmpVersion a r ≠ .gt ∧
      (∀ w ∈ l, cmpVersion w r ≠ .gt) := by
  intro l
  induction l with
  | nil =>
      intro a
      refine ⟨a, rfl, Or.inl rfl, ?_, by simp⟩
      rw [cmpVersion_refl]
      simp
  | cons x l ih =>
      intro a
      rw [List.foldl_cons]
      by_cases hx : cmpVersion x a = .lt
      · have hstep : maxStep (some a) x = some a := by
          rw [maxStep, if_pos hx]
        rw [hstep]
        obtain ⟨r, hr, hmem, ha, hall⟩ := ih a
        refine ⟨r, hr, ?_, ha, ?_⟩
        · rcases hmem with h | h
          · exact Or.inl h
          · exact Or.inr (by simp [h])
        · intro w hw
          rcases List.mem_cons.mp hw with rfl | hwl
          · exact cmpVersion_not_gt_trans (cmpVersion_lt_not_gt hx) ha
          · exact hall w hwl
      · have hstep : maxStep (some a) x = some x := by
          rw [maxStep, if_neg hx]
        rw [hstep]
        obtain ⟨r, hr, hmem, hxr, hall⟩ := ih x
        refine ⟨r, hr, ?_, ?_, ?_⟩
        · rcases hmem with h | h
          · exact Or.inr (by simp [h])
          · exact Or.inr (by simp [h])
        · exact cmpVersion_not_gt_trans (cmpVersion_not_lt_flip hx) hxr
        · intro w hw
          rcases List.mem_cons.mp hw with rfl | hwl
          · exact hxr
          · exact hall w hwl

theorem listMax_none_iff (l : List Version) : listMax l = none ↔ l = [] := by
  cases l with
  | nil => simp [listMax]
  | cons x l =>
      rw [listMax, List.foldl_cons]
      have hstep : maxStep none x = some x := rfl
      rw [hstep]
      obtain ⟨r, hr, _, _, _⟩ := foldl_maxStep_some l x
      rw [hr]
      simp

theorem listMax_spec {l : List Version} {v : Version} (h : listMax l = some v) :
    v ∈ l ∧ ∀ w ∈ l, cmpVersion w v ≠ .gt := by
  cases l with
  | nil => exact Option.noConfusion h
  | cons x l =>
      rw [listMax, List.foldl_cons] at h
      have hstep : maxStep none x = some x := rfl
      rw [hstep] at h
      obtain ⟨r, hr, hmem, hxr, hall⟩ := foldl_maxStep_some l x
      rw [hr] at h
      injection h with h'
      subst h'
      refine ⟨?_, ?_⟩
      · rcases hmem with h | h
        · simp [h]
        · simp [h]
      · intro w hw
        rcases List.mem_cons.mp hw with rfl | hwl
        · exact hxr
        · exact hall w hwl

/-! Ordering of canonical prerelease labels. -/

theorem then_eq_right (o : Ordering) : o.then .eq = o := by cases o <;> rfl

theorem lexCompare_cons_eq (c : Char) (xs ys : List Char) :
    lexCompare (c :: xs) (c :: ys) = lexCompare xs ys := by
  rw [lexCompare, natCompare_self, then_eq_left]

theorem digitChar_compare_lt {x y : Nat} (hx : x < 10) (hy : y < 10) (h : x < y) :
    compare (Nat.digitChar x).toNat (Nat.digitChar y).toNat = .lt := by
  interval_cases x <;> interval_cases y <;> first | omega | decide

theorem digitsLexLt : ∀ dx dy : List Nat, dx.length = dy.length → (∀ d ∈ dx, d < 10) →
    (∀ d ∈ dy, d < 10) → digitsVal dx < digitsVal dy →
    lexCompare (dx.map Nat.digitChar) (dy.map Nat.digitChar) = .lt := by
  intro dx
  induction dx with
  | nil =>
      intro dy hlen _ _ hval
      cases dy with
      | nil => exact absurd hval (by simp [digitsVal])
      | cons e dy => simp at hlen
  | cons d dx ih =>
      intro dy hlen hdx hdy hval
      cases dy with
      | nil => simp at hlen
      | cons e dy =>
          have hlen' : dx.length = dy.length := by simpa using hlen
          rw [digitsVal_cons, digitsVal_cons, hlen'] at hval
          simp only [List.map_cons]
          rw [lexCompare, then_eq_lt]
          rcases Nat.lt_trichotomy d e with hde | hde | hde
          · exact Or.inl (digitChar_compare_lt (hdx d (by simp)) (hdy e (by simp)) hde)
          · right
            subst hde
            refine ⟨natCompare_self _, ?_⟩
            apply ih dy hlen' (fun u hu => hdx u (by simp [hu])) (fun u hu => hdy u (by simp [hu]))
            omega
          · exfalso
            have hbv : digitsVal dy < 10 ^ dy.length :=
              digitsVal_lt dy (fun u hu => hdy u (by simp [hu]))
            obtain ⟨B, hB⟩ : ∃ B, 10 ^ dy.length = B := ⟨_, rfl⟩
            rw [hB] at hval hbv
            have hm : (e + 1) * B ≤ d * B := Nat.mul_le_mul_right _ (by omega)
            have hs : (e + 1) * B = e * B + B := by ring
            omega

theorem isDigit_ne_dot {c : Char} (h : c.isDigit = true) : ¬c = '.' := by
  intro hc
  rw [hc] at h
  exact absurd h (by decide)

theorem splitDots_no_dots : ∀ l : List Char, (∀ c ∈ l, ¬c = '.') → splitDots l = [l] := by
  intro l
  induction l with
  | nil => intro _; rfl
  | cons c rest ih =>
      intro h
      rw [splitDots, if_neg (h c (by simp)), ih (fun u hu => h u (by simp [hu]))]

theorem preLabel_all_not_dot (n : Nat) : ∀ c ∈ (preLabelStr n).data, ¬c = '.' := by
  rw [preLabelStr_data]
  intro c hc
  rcases List.mem_cons.mp hc with rfl | hc1
  · decide
  rcases List.mem_cons.mp hc1 with rfl | hc2
  · decide
  rcases List.mem_cons.mp hc2 with rfl | hc3
  · decide
  · exact isDigit_ne_dot (natToDigits_all_digit n c hc3)

theorem preLabel_not_all_digit (n : Nat) :
    ¬((preLabelStr n).data.all Char.isDigit = true) := by
  rw [preLabelStr_data]
  intro h
  rw [List.all_cons, Bool.and_eq_true] at h
  exact absurd h.1 (by decide)

theorem cmpPre_labels (a b : Nat) :
    cmpPre (preLabelStr a) (preLabelStr b) = lexCompare (natToDigits a) (natToDigits b) := by
  rw [cmpPre, if_neg (preLabelStr_ne_empty a), if_neg (preLabelStr_ne_empty b)]
  rw [splitDots_no_dots _ (preLabel_all_not_dot a), splitDots_no_dots _ (preLabel_all_not_dot b)]
  rw [cmpIdentList]
  rw [show cmpIdentList [] [] = .eq from rfl, then_eq_right]
  rw [cmpIdent, if_neg (preLabel_not_all_digit a), if_neg (preLabel_not_all_digit b)]
  rw [preLabelStr_data, preLabelStr_data, lexCompare_cons_eq, lexCompare_cons_eq,
    lexCompare_cons_eq]

theorem cmpVersion_release_gt (M m p : Nat) (s b1 b2 : String) (hs : ¬s = "") :
    cmpVersion ⟨M, m, p, "", b1⟩ ⟨M, m, p, s, b2⟩ = .gt := by
  rw [cmpVersion]
  simp only [natCompare_self, then_eq_left]
  rw [cmpPre, if_pos rfl, if_neg hs, then_gt_left]

theorem cmpVersion_pre_labels_lt (M m p a b : Nat) (b1 b2 : String)
    (hlen : (natToDigits a).length = (natToDigits b).length) (hab : a < b) :
    cmpVersion ⟨M, m, p, preLabelStr a, b1⟩ ⟨M, m, p, preLabelStr b, b2⟩ = .lt := by
  rw [cmpVersion]
  simp only [natCompare_self, then_eq_left]
  rw [cmpPre_labels]
  have hlex : lexCompare (natToDigits a) (natToDigits b) = .lt := by
    rw [natToDigits, natToDigits]
    apply digitsLexLt
    · have h1 : (natToDigits a).length = (bigDigits a).length := by
        rw [natToDigits, List.length_map]
      have h2 : (natToDigits b).length = (bigDigits b).length := by
        rw [natToDigits, List.length_map]
      rw [← h1, ← h2]
      exact hlen
    · exact bigDigits_lt a
    · exact bigDigits_lt b
    · rw [bigDigits_val, bigDigits_val]
      exact hab
  rw [hlex, then_lt_left]

/-! Claim theorems. -/

/-- C1 counterexample: the claim says the numerically higher counter compares
    strictly greater, so pre10 would beat pre2; the semver comparison treats
    both labels as alphanumeric identifiers and compares them as ASCII strings,
    so 1.0.0-pre10 compares strictly less than 1.0.0-pre2. -/
theorem C1_counterexample :
    cmpVersion ⟨1, 0, 0, "pre10", ""⟩ ⟨1, 0, 0, "pre2", ""⟩ = .lt ∧
      ¬cmpVersion ⟨1, 0, 0, "pre10", ""⟩ ⟨1, 0, 0, "pre2", ""⟩ = .gt := by
  decide

/-- C1 (amended): for equal numeric triples a release (empty prerelease)
    compares strictly greater than any version carrying a prerelease, whatever
    the build metadata; and between two canonical pre-counter labels whose
    decimal digit strings have equal length, the numerically higher counter
    compares strictly greater (the labels compare as ASCII strings, so with
    unequal digit lengths the lexicographically greater label wins instead). -/
theorem C1_ordering :
    (∀ (M m p : Nat) (s b1 b2 : String), ¬s = "" →
        cmpVersion ⟨M, m, p, "", b1⟩ ⟨M, m, p, s, b2⟩ = .gt) ∧
    (∀ (M m p a b : Nat) (b1 b2 : String),
        (natToDigits a).length = (natToDigits b).length → a < b →
        cmpVersion ⟨M, m, p, preLabelStr a, b1⟩ ⟨M, m, p, preLabelStr b, b2⟩ = .lt) :=
  ⟨cmpVersion_release_gt, cmpVersion_pre_labels_lt⟩

/-- C1 witness: concrete instances of both conjuncts. -/
theorem C1_ordering_witness :
    cmpVersion ⟨1, 2, 3, "", ""⟩ ⟨1, 2, 3, "pre0", ""⟩ = .gt ∧
      cmpVersion ⟨1, 0, 0, preLabelStr 3, ""⟩ ⟨1, 0, 0, preLabelStr 7, ""⟩ = .lt :=
  ⟨C1_ordering.1 1 2 3 "pre0" "" "" (by decide),
   C1_ordering.2 1 0 0 3 7 "" "" (by decide) (by decide)⟩

/-- C2 counterexample: the claim says the bump always returns a release with
    the prerelease cleared; increment_version leaves the prerelease untouched,
    so bumping 1.4.7-pre3 yields 1.4.8-pre3, not a release. -/
theorem C2_counterexample :
    (⟨1, 4, 7, "pre3", ""⟩ : Version).increment_version .patch = ⟨1, 4, 8, "pre3", ""⟩ ∧
      ¬((⟨1, 4, 7, "pre3", ""⟩ : Version).increment_version .patch).pre = "" := by
  decide

/-- C2 (amended): increment_version increments exactly one numeric field and
    zeroes the lower-order fields but leaves the prerelease (and build)
    unchanged rather than clearing it; applied to a release version the result
    is again a release, and the claimed examples on 1.4.7 hold. -/
theorem C2_bump :
    (∀ v : Version,
        v.increment_version .major = ⟨v.major + 1, 0, 0, v.pre, v.build⟩ ∧
        v.increment_version .minor = ⟨v.major, v.minor + 1, 0, v.pre, v.build⟩ ∧
        v.increment_version .patch = ⟨v.major, v.minor, v.patch + 1, v.pre, v.build⟩) ∧
    (∀ (v : Version) (c : SubVersion), v.pre = "" → (v.increment_version c).pre = "") ∧
    (⟨1, 4, 7, "", ""⟩ : Version).increment_version .major = ⟨2, 0, 0, "", ""⟩ ∧
    (⟨1, 4, 7, "", ""⟩ : Version).increment_version .minor = ⟨1, 5, 0, "", ""⟩ ∧
    (⟨1, 4, 7, "", ""⟩ : Version).increment_version .patch = ⟨1, 4, 8, "", ""⟩ := by
  refine ⟨?_, ?_, by decide, by decide, by decide⟩
  · intro v
    refine ⟨?_, ?_, ?_⟩ <;> (cases v; rfl)
  · intro v c h
    have hpre : (v.increment_version c).pre = v.pre := by cases c <;> rfl
    rw [hpre, h]

/-- C2 witness: a concrete instance of the release-preservation conjunct. -/
theorem C2_bump_witness : ((⟨1, 4, 7, "", ""⟩ : Version).increment_version .patch).pre = "" :=
  C2_bump.2.1 ⟨1, 4, 7, "", ""⟩ .patch rfl

/-- C3: for any known set and any candidate carrying a canonical pre-counter
    label (with the whole +100 chain inside i32 range), resolve_collision
    returns the candidate with its counter advanced by 100 times the number of
    colliding steps: the result is not in the known set, every earlier counter
    in the chain was in the known set, and the final counter is at least the
    starting one. -/
theorem C3_resolve (known : List Version) (v : Version) (n : Nat)
    (hpre : v.pre = preLabelStr n) (hbound : n + 100 * known.length ≤ i32Max) :
    ∃ k, k ≤ known.length ∧
      v.resolve_collision known = .ok (v.set_pretag ((n + 100 * k : Nat) : Int)) ∧
      v.set_pretag ((n + 100 * k : Nat) : Int) ∉ known ∧
      (∀ j, j < k → v.set_pretag ((n + 100 * j : Nat) : Int) ∈ known) ∧
      n ≤ n + 100 * k := by
  obtain ⟨k, h1, h2, h3, h4⟩ := resolve_collision_spec known v n hpre hbound
  exact ⟨k, h1, h2, h3, h4, Nat.le_add_right n (100 * k)⟩

/-- C3 witness: candidate 1.2.0-pre2 with known set containing pre2 and
    pre102; the chain steps over both and lands on pre202. -/
theorem C3_resolve_witness :
    ∃ k, k ≤ 2 ∧
      (⟨1, 2, 0, "pre2", ""⟩ : Version).resolve_collision
          [⟨1, 2, 0, "pre2", ""⟩, ⟨1, 2, 0, "pre102", ""⟩] =
        .ok ((⟨1, 2, 0, "pre2", ""⟩ : Version).set_pretag ((2 + 100 * k : Nat) : Int)) ∧
      (⟨1, 2, 0, "pre2", ""⟩ : Version).set_pretag ((2 + 100 * k : Nat) : Int) ∉
        [⟨1, 2, 0, "pre2", ""⟩, ⟨1, 2, 0, "pre102", ""⟩] ∧
      (∀ j, j < k → (⟨1, 2, 0, "pre2", ""⟩ : Version).set_pretag ((2 + 100 * j : Nat) : Int) ∈
        [⟨1, 2, 0, "pre2", ""⟩, ⟨1, 2, 0, "pre102", ""⟩]) ∧
      2 ≤ 2 + 100 * k :=
  C3_resolve [⟨1, 2, 0, "pre2", ""⟩, ⟨1, 2, 0, "pre102", ""⟩] ⟨1, 2, 0, "pre2", ""⟩ 2
    (by decide) (by decide)

/-- C4: resolve_collision performs at most known.length + 1 membership
    iterations on every input, because each recursive step consumes a distinct
    member of the known set; the loop therefore never runs forever and the
    bound is never exceeded. -/
theorem C4_iterations (v : Version) (tags : List Version) :
    resolve_collision_iterations v tags ≤ tags.length + 1 :=
  resolve_iterations_le v tags

/-- C5: parsing the printed text of any well-formed version (print prepends
    the leading v; parse_v strips the first character) returns exactly that
    version. -/
theorem C5_roundtrip (v : Version) (hwf : v.Wf) : Version.parse_v v.print = .ok v :=
  parse_v_print v hwf

/-- C5 witness: round trip at a concrete version with prerelease and build. -/
theorem C5_roundtrip_witness :
    (⟨1, 2, 3, "pre7", "x1"⟩ : Version).Wf ∧
      Version.parse_v (⟨1, 2, 3, "pre7", "x1"⟩ : Version).print = .ok ⟨1, 2, 3, "pre7", "x1"⟩ :=
  ⟨by decide, C5_roundtrip ⟨1, 2, 3, "pre7", "x1"⟩ (by decide)⟩

/-- C6: latest_release is none exactly when no release version exists; when it
    is some v, v is a member release and no release in the set compares
    greater; active_prereleases is exactly the set of prerelease-carrying
    members comparing strictly greater than the release floor (latest_release,
    or 0.0.0 when absent); and on the tag set containing 1.0.0, 1.1.0 and
    1.1.0-pre0 the latest release is 1.1.0 with no active prereleases. -/
theorem C6_classifier (tags : List Version) :
    (latest_release tags = none ↔ ∀ v ∈ tags, ¬v.pre = "") ∧
    (∀ v, latest_release tags = some v →
      v ∈ tags ∧ v.pre = "" ∧ ∀ w ∈ tags, w.pre = "" → cmpVersion w v ≠ .gt) ∧
    (∀ w, w ∈ active_prereleases tags ↔
      w ∈ tags ∧ ¬w.pre = "" ∧ cmpVersion w ((latest_release tags).getD v000) = .gt) ∧
    (latest_release demoTags = some ⟨1, 1, 0, "", ""⟩ ∧ active_prereleases demoTags = []) := by
  refine ⟨?_, ?_, ?_, by decide, by decide⟩
  · rw [latest_release, listMax_none_iff, List.filter_eq_nil_iff]
    constructor
    · intro h v hv hpre
      exact h v hv (by simp [hpre])
    · intro h v hv hdec
      rw [decide_eq_true_eq] at hdec
      exact h v hv hdec
  · intro v h
    rw [latest_release] at h
    obtain ⟨hmem, hmax⟩ := listMax_spec h
    rw [List.mem_filter] at hmem
    refine ⟨hmem.1, by simpa using hmem.2, ?_⟩
    intro w hw hwpre
    exact hmax w (List.mem_filter.mpr ⟨hw, by simp [hwpre]⟩)
  · intro w
    rw [active_prereleases, List.mem_filter, List.mem_filter]
    simp only [decide_eq_true_eq]
    tauto

/-- C6 witness: the latest-release characterization applied to the concrete
    demo tag set. -/
theorem C6_classifier_witness :
    (⟨1, 1, 0, "", ""⟩ : Version) ∈ demoTags ∧ (⟨1, 1, 0, "", ""⟩ : Version).pre = "" ∧
      ∀ w ∈ demoTags, w.pre = "" → cmpVersion w ⟨1, 1, 0, "", ""⟩ ≠ .gt :=
  (C6_classifier demoTags).2.1 ⟨1, 1, 0, "", ""⟩ (by decide)

/-- C7: off the canonical branch with a current-lineage prerelease carrying a
    canonical pre-counter label, the engine proposes exactly that prerelease
    with its counter incremented by 1 (whenever, as in the claimed scenario,
    the incremented tag is not already taken, so collision resolution leaves
    it unchanged). -/
theorem C7_side_lineage (tags : List Version) (latest : Option Version) (choice : SubVersion)
    (v : Version) (n : Nat) (hpre : v.pre = preLabelStr n) (hn : n + 1 ≤ i32Max)
    (hfree : v.set_pretag ((n + 1 : Nat) : Int) ∉ tags) :
    next_tag_proposal false latest (some v) choice tags =
      .ok (v.set_pretag ((n + 1 : Nat) : Int)) := by
  have hcast : ((n : Int) + 1) = ((n + 1 : Nat) : Int) := by push_cast; ring
  have hval : (if (false : Bool) then Except.ok (prompt_increment latest choice)
      else ((some v).getD (prompt_increment latest choice)).increment_prerelease 1)
      = .ok (v.set_pretag ((n + 1 : Nat) : Int)) := by
    show v.increment_prerelease 1 = _
    rw [increment_prerelease_label hpre (by omega) 1, hcast]
  rw [next_tag_proposal, hval]
  show (v.set_pretag ((n + 1 : Nat) : Int)).resolve_collision tags = _
  rw [Version.resolve_collision]
  show resolveCollisionAux (tags.length + 1 + 1) (v.set_pretag ((n + 1 : Nat) : Int)) tags = _
  rw [resolveCollisionAux, if_neg hfree]

/-- C7 witness: the claimed scenario, tag set 1.1.0, 1.2.0-pre0 and
    1.2.0-pre1 with lineage 1.2.0-pre1, proposes 1.2.0-pre2. -/
theorem C7_side_lineage_witness :
    next_tag_proposal false (some ⟨1, 1, 0, "", ""⟩) (some ⟨1, 2, 0, "pre1", ""⟩)
        SubVersion.patch
        [⟨1, 1, 0, "", ""⟩, ⟨1, 2, 0, "pre0", ""⟩, ⟨1, 2, 0, "pre1", ""⟩] =
      .ok ((⟨1, 2, 0, "pre1", ""⟩ : Version).set_pretag ((1 + 1 : Nat) : Int)) :=
  C7_side_lineage [⟨1, 1, 0, "", ""⟩, ⟨1, 2, 0, "pre0", ""⟩, ⟨1, 2, 0, "pre1", ""⟩]
    (some ⟨1, 1, 0, "", ""⟩) SubVersion.patch ⟨1, 2, 0, "pre1", ""⟩ 1
    (by decide) (by decide) (by decide)

/-- C8 counterexample: the claim says decoding fails for every label not
    matching the anchored pre-digits pattern; the label apre3 does not match
    that pattern, yet the unanchored regex finds pre3 inside it and decoding
    succeeds with counter 3, so incrementing by 1 produces pre4. -/
theorem C8_counterexample :
    matchesPrePattern "apre3" = false ∧
      (⟨1, 0, 0, "apre3", ""⟩ : Version).increment_prerelease 1 = .ok ⟨1, 0, 0, "pre4", ""⟩ := by
  decide

/-- C8 (amended): for a nonempty label, the decode scan succeeds exactly when
    the label contains pre followed by at least one digit as a substring
    anywhere (the regex is unanchored); when no such substring exists the
    decode fails with the malformed error; and a non-conforming label that
    does contain such a substring, like xxpre7yy, is accepted with the
    embedded counter. -/
theorem C8_decode (v : Version) (hne : ¬v.pre = "") (i : Int) :
    ((∃ ds, preScan v.pre.data = some ds) ↔
      ∃ l1 ds l2, v.pre.data = l1 ++ 'p' :: 'r' :: 'e' :: (ds ++ l2) ∧ ds ≠ [] ∧
        ds.all Char.isDigit = true) ∧
    (preScan v.pre.data = none → v.increment_prerelease i = .error .malformed) ∧
    (⟨2, 0, 0, "xxpre7yy", ""⟩ : Version).increment_prerelease 1 = .ok ⟨2, 0, 0, "pre8", ""⟩ := by
  refine ⟨preScan_some_iff v.pre.data, ?_, by decide⟩
  intro hnone
  rw [Version.increment_prerelease, if_neg hne, hnone]

/-- C8 witness: the label alpha contains no pre-digits substring, so decoding
    it fails with the malformed error. -/
theorem C8_decode_witness :
    (⟨1, 0, 0, "alpha", ""⟩ : Version).increment_prerelease 1 = .error .malformed :=
  (C8_decode ⟨1, 0, 0, "alpha", ""⟩ (by decide) 1).2.1 (by decide)

/-- C9 counterexample: the claim says the bare canonical form is accepted and
    everything outside the v-prefixed pre-digits grammar is rejected; in fact
    parse_v strips the first character unconditionally, so the unprefixed
    1.2.3 fails to parse, while v1.2.3-alpha (a prerelease label outside the
    pre-digits convention) parses successfully. -/
theorem C9_counterexample :
    Version.parse_v "1.2.3" = .error .malformed ∧
      Version.parse_v "v1.2.3-alpha" = .ok ⟨1, 2, 3, "alpha", ""⟩ := by
  decide

/-- C9 (amended): parse_v strips the first character whatever it is and then
    accepts the full semver grammar: every string made of one arbitrary
    leading character followed by the canonical text of a well-formed version
    is accepted (so x1.2.3 parses, and arbitrary semver prerelease and build
    labels are accepted), while the bare unprefixed canonical form is
    rejected because its first digit is stripped. -/
theorem C9_parse :
    (∀ (c : Char) (v : Version), v.Wf → Version.parse_v ⟨c :: displayChars v⟩ = .ok v) ∧
    Version.parse_v "1.2.3" = .error .malformed ∧
    Version.parse_v "x1.2.3" = .ok ⟨1, 2, 3, "", ""⟩ ∧
    Version.parse_v "v1.2.3-alpha.7+x86" = .ok ⟨1, 2, 3, "alpha.7", "x86"⟩ :=
  ⟨parse_v_cons, by decide, by decide, by decide⟩

/-- C9 witness: an arbitrary prefix character in front of a concrete
    well-formed version parses back to that version. -/
theorem C9_parse_witness :
    (⟨7, 0, 1, "pre3", ""⟩ : Version).Wf ∧
      Version.parse_v ⟨'w' :: displayChars ⟨7, 0, 1, "pre3", ""⟩⟩ = .ok ⟨7, 0, 1, "pre3", ""⟩ :=
  ⟨by decide, C9_parse.1 'w' ⟨7, 0, 1, "pre3", ""⟩ (by decide)⟩

/-- C10: on a version whose prerelease label is empty, increment_prerelease
    sets the label to exactly pre0 whatever the increment amount is; and
    resolve_collision applied to such a release version that is present in
    the known set returns it with the invented pre0 suffix on the first retry
    (not pre100), provided pre0 itself is free. -/
theorem C10_empty_pre (v : Version) (i : Int) (known : List Version) (hpre : v.pre = "") :
    v.increment_prerelease i = .ok (v.set_pretag 0) ∧
      (v ∈ known → v.set_pretag 0 ∉ known →
        v.resolve_collision known = .ok (v.set_pretag 0)) := by
  refine ⟨increment_prerelease_empty hpre i, ?_⟩
  intro hmem hnot
  rw [Version.resolve_collision]
  show resolveCollisionAux (known.length + 1 + 1) v known = _
  rw [resolveCollisionAux, if_pos hmem, increment_prerelease_empty hpre 100]
  show resolveCollisionAux (known.length + 1) (v.set_pretag 0) known = _
  rw [resolveCollisionAux, if_neg hnot]

/-- C10 witness: incrementing the release 1.2.0 by 55 yields 1.2.0-pre0, and
    resolving 1.2.0 against a known set containing it yields 1.2.0-pre0. -/
theorem C10_empty_pre_witness :
    (⟨1, 2, 0, "", ""⟩ : Version).increment_prerelease 55 =
        .ok ((⟨1, 2, 0, "", ""⟩ : Version).set_pretag 0) ∧
      (⟨1, 2, 0, "", ""⟩ : Version).resolve_collision [⟨1, 2, 0, "", ""⟩] =
        .ok ((⟨1, 2, 0, "", ""⟩ : Version).set_pretag 0) :=
  ⟨(C10_empty_pre ⟨1, 2, 0, "", ""⟩ 55 [⟨1, 2, 0, "", ""⟩] rfl).1,
   (C10_empty_pre ⟨1, 2, 0, "", ""⟩ 55 [⟨1, 2, 0, "", ""⟩] rfl).2 (by decide) (by decide)⟩
